import Mathlib

/-!
The bounded cache of `LR2_dynamic/prog_2_files_cache.c`

A shallow embedding of `create_cache` and `add_to_cache`, and of the variant of
`add_to_cache` in `LR2_dynamic/prog_2_files_cache_fuzz.c` (`Fuzz.add_to_cache`).

* The `CacheEntry` structs live in a heap `mem : Nat → Option CacheEntry`
  indexed by address; a pointer is an `Option Nat` and `none` is `NULL`.
* The key buffer and the data buffer an entry owns are kept inside the entry
  (their contents, not their addresses); `data = none` is a `NULL` data pointer.
* `malloc` of an entry struct hands out the address `brk` and bumps it; whether
  a `malloc` succeeds is an input of each call (`Mallocs`). The struct under
  construction is written to the heap once its three allocations succeeded,
  right before it is linked; on the failure paths it is freed unlinked.
* `count` and `max_size` are C `int`s, kept as mathematical integers: `count++`
  leaves the range of `int` only when `max_size` is `INT_MAX` and that many
  entries are live, where C leaves the behaviour undefined.
* `pthread_mutex_lock` / `unlock`, `malloc` and `free` leave an `Event` in
  `trace` (newest first).
* A loop that runs out of its step budget, or a dereference of an address that
  holds no entry, ends the call with a `Fault`; the theorems below show that on
  well-formed caches (`WF`, which holds of every cache the code can reach, see
  `Inv.reach`) the calls return.
-/

namespace LruCache

/-- What the program does to the allocator and the mutex. -/
inductive Event where
  | lock
  | unlock
  | malloc_cache
  | malloc_entry (a : Nat)
  | malloc_key (a : Nat)
  | malloc_data (a : Nat)
  | free_entry (a : Nat)
  | free_key (a : Nat)
  | free_data (a : Nat)
deriving DecidableEq

/-- Ways a call can fail to return. -/
inductive Fault where
  | dangling
  | diverges
deriving DecidableEq

/-- The struct `cache_entry`. -/
structure CacheEntry where
  key : String
  data : Option (List Nat)
  size : Nat
  next : Option Nat
  prev : Option Nat
deriving DecidableEq

/-- The struct `Cache` together with the heap its pointers point into. -/
structure Cache where
  head : Option Nat
  tail : Option Nat
  count : Int
  max_size : Int
  mem : Nat → Option CacheEntry
  brk : Nat
  trace : List Event

/-- Which of the `malloc` calls of one `add_to_cache` succeed: the one for the
entry struct, the one for the key copy, the one for the data buffer. -/
structure Mallocs where
  entry : Bool
  key : Bool
  data : Bool
deriving DecidableEq

/-- All allocations succeed. -/
def Mallocs.ok : Mallocs := ⟨true, true, true⟩

/-- The function `create_cache` (the same code in both source files): `ok` says
whether `malloc(sizeof(Cache))` succeeds. -/
def create_cache (max_size : Int) (ok : Bool) : Option Cache :=
  if ok then
    some { head := none, tail := none, count := 0, max_size := max_size,
           mem := fun _ => none, brk := 0, trace := [Event.malloc_cache] }
  else none

/-- The search loop of `add_to_cache`: walk `next` pointers from `current`
until an entry with `strcmp(current->key, key) == 0` is met. -/
def find_entry (mem : Nat → Option CacheEntry) (key : String) :
    Nat → Option Nat → Except Fault (Option (Nat × CacheEntry))
  | _, none => .ok none
  | 0, some _ => .error .diverges
  | fuel + 1, some a =>
    match mem a with
    | none => .error .dangling
    | some e => if e.key = key then .ok (some (a, e)) else find_entry mem key fuel e.next

/-- The eviction loop `while (cache->count > cache->max_size && cache->tail)`.
Every iteration decrements `count`, so `count - max_size` steps are enough. -/
def evict_loop : Nat → Cache → Except Fault Cache
  | fuel, c =>
    if c.count > c.max_size then
      match c.tail with
      | none => .ok c
      | some to_remove =>
        match fuel with
        | 0 => .error .diverges
        | fuel + 1 =>
          match c.mem to_remove with
          | none => .error .dangling
          | some r =>
            match r.prev with
            | some p =>
              match c.mem p with
              | none => .error .dangling
              | some pe =>
                evict_loop fuel
                  { c with
                    tail := some p
                    mem := Function.update
                      (Function.update c.mem p (some { pe with next := none })) to_remove none
                    count := c.count - 1
                    trace := Event.free_entry to_remove :: c.trace }
            | none =>
              evict_loop fuel
                { c with
                  tail := none
                  head := none
                  mem := Function.update c.mem to_remove none
                  count := c.count - 1
                  trace := Event.free_entry to_remove :: c.trace }
    else .ok c

/-- Release the lock and return. -/
def unlock (c : Cache) : Cache := { c with trace := Event.unlock :: c.trace }

/-- The existing-key branch of `add_to_cache`, for the entry `e` at `a`. -/
def update_entry (c : Cache) (a : Nat) (e : CacheEntry) (data : List Nat) (size : Nat)
    (m : Mallocs) : Cache :=
  let freed : List Event :=
    match e.data with
    | some _ => Event.free_data a :: c.trace
    | none => c.trace
  if m.data then
    { c with
      mem := Function.update c.mem a
        (some { e with data := some (data.take size), size := size })
      trace := Event.unlock :: Event.malloc_data a :: freed }
  else
    { c with
      mem := Function.update c.mem a (some { e with data := none })
      trace := Event.unlock :: freed }

/-- The linking part of `add_to_cache` (lines 87-101): the fully allocated
entry is stored at `a`, linked in front of `head`, and `count` is incremented. -/
def link_entry (c : Cache) (a : Nat) (key : String) (data : List Nat) (size : Nat) :
    Except Fault Cache :=
  let new_entry : CacheEntry :=
    { key := key, data := some (data.take size), size := size, next := c.head, prev := none }
  let mem1 := Function.update c.mem a (some new_entry)
  match c.head with
  | some h =>
    match mem1 h with
    | none => .error .dangling
    | some he =>
      .ok { c with
            mem := Function.update mem1 h (some { he with prev := some a })
            head := some a
            tail := match c.tail with
              | none => some a
              | some t => some t
            count := c.count + 1 }
  | none =>
    .ok { c with
          mem := mem1
          head := some a
          tail := match c.tail with
            | none => some a
            | some t => some t
          count := c.count + 1 }

/-- The new-key branch of `add_to_cache`. -/
def insert_entry (c : Cache) (key : String) (data : List Nat) (size : Nat) (m : Mallocs) :
    Except Fault Cache :=
  if m.entry then
    let a := c.brk
    let c := { c with brk := c.brk + 1, trace := Event.malloc_entry a :: c.trace }
    if m.key then
      let c := { c with trace := Event.malloc_key a :: c.trace }
      if m.data then
        let c := { c with trace := Event.malloc_data a :: c.trace }
        match link_entry c a key data size with
        | .error f => .error f
        | .ok c =>
          match evict_loop (c.count - c.max_size).toNat c with
          | .error f => .error f
          | .ok c => .ok (unlock c)
      else
        .ok (unlock { c with trace := Event.free_entry a :: c.trace })
    else
      .ok (unlock { c with trace := Event.free_entry a :: c.trace })
  else
    .ok (unlock c)

/-- The function `add_to_cache(cache, key, data, size)` of `prog_2_files_cache.c`.
A `NULL` argument is `none`; `data` is the bytes readable at the data pointer,
of which `size` are copied. The search loop is given `brk + 1` steps: a chain
of distinct entry structs is never longer than the number `brk` of structs
ever allocated. -/
def add_to_cache (cache : Option Cache) (key : Option String) (data : Option (List Nat))
    (size : Nat) (m : Mallocs) : Except Fault (Option Cache) :=
  match cache, key, data with
  | some c, some key, some data =>
    let c := { c with trace := Event.lock :: c.trace }
    match find_entry c.mem key (c.brk + 1) c.head with
    | .error f => .error f
    | .ok (some (a, e)) => .ok (some (update_entry c a e data size m))
    | .ok none =>
      match insert_entry c key data size m with
      | .error f => .error f
      | .ok c => .ok (some c)
  | _, _, _ => .ok cache

/-- The new-key branch of `add_to_cache` in `prog_2_files_cache_fuzz.c`: the
code of the original, except that `free(new_entry->key)` precedes
`free(new_entry)` when the data allocation fails. -/
def Fuzz.insert_entry (c : Cache) (key : String) (data : List Nat) (size : Nat) (m : Mallocs) :
    Except Fault Cache :=
  if m.entry then
    let a := c.brk
    let c := { c with brk := c.brk + 1, trace := Event.malloc_entry a :: c.trace }
    if m.key then
      let c := { c with trace := Event.malloc_key a :: c.trace }
      if m.data then
        let c := { c with trace := Event.malloc_data a :: c.trace }
        match link_entry c a key data size with
        | .error f => .error f
        | .ok c =>
          match evict_loop (c.count - c.max_size).toNat c with
          | .error f => .error f
          | .ok c => .ok (unlock c)
      else
        .ok (unlock { c with trace := Event.free_entry a :: Event.free_key a :: c.trace })
    else
      .ok (unlock { c with trace := Event.free_entry a :: c.trace })
  else
    .ok (unlock c)

/-- The function `add_to_cache` of `prog_2_files_cache_fuzz.c`. -/
def Fuzz.add_to_cache (cache : Option Cache) (key : Option String) (data : Option (List Nat))
    (size : Nat) (m : Mallocs) : Except Fault (Option Cache) :=
  match cache, key, data with
  | some c, some key, some data =>
    let c := { c with trace := Event.lock :: c.trace }
    match find_entry c.mem key (c.brk + 1) c.head with
    | .error f => .error f
    | .ok (some (a, e)) => .ok (some (update_entry c a e data size m))
    | .ok none =>
      match Fuzz.insert_entry c key data size m with
      | .error f => .error f
      | .ok c => .ok (some c)
  | _, _, _ => .ok cache


/-- One call of `add_to_cache`: its arguments and its allocation outcomes. -/
structure Call where
  key : Option String
  data : Option (List Nat)
  size : Nat
  mallocs : Mallocs

/-- A call with non-null arguments whose allocations all succeed. -/
def put (key : String) (data : List Nat) (size : Nat) : Call :=
  ⟨some key, some data, size, Mallocs.ok⟩

/-- A sequence of `add_to_cache` calls on the same cache pointer. -/
def run : Option Cache → List Call → Except Fault (Option Cache)
  | cache, [] => .ok cache
  | cache, call :: rest =>
    match add_to_cache cache call.key call.data call.size call.mallocs with
    | .error f => .error f
    | .ok cache => run cache rest

/-- The key, data buffer and size an entry holds. -/
structure Entry where
  key : String
  data : Option (List Nat)
  size : Nat
deriving DecidableEq

/-- Addresses met walking `next` pointers from `p`. -/
def walk_next (mem : Nat → Option CacheEntry) : Nat → Option Nat → List Nat
  | _, none => []
  | 0, some _ => []
  | fuel + 1, some a =>
    match mem a with
    | none => []
    | some e => a :: walk_next mem fuel e.next

/-- Addresses met walking `prev` pointers from `p`. -/
def walk_prev (mem : Nat → Option CacheEntry) : Nat → Option Nat → List Nat
  | _, none => []
  | 0, some _ => []
  | fuel + 1, some a =>
    match mem a with
    | none => []
    | some e => a :: walk_prev mem fuel e.prev

/-- Addresses of the entries from `head` along `next`. -/
def addrs (c : Cache) : List Nat := walk_next c.mem (c.brk + 1) c.head

/-- Addresses of the entries from `tail` along `prev`. -/
def addrs_back (c : Cache) : List Nat := walk_prev c.mem (c.brk + 1) c.tail

/-- What is stored at an address. -/
def entry_at (mem : Nat → Option CacheEntry) (a : Nat) : Option Entry :=
  (mem a).map fun e => ⟨e.key, e.data, e.size⟩

/-- The entries of the cache, most recently inserted first. -/
def entries (c : Cache) : List Entry := (addrs c).filterMap (entry_at c.mem)

/-- The keys of the cache, most recently inserted first. -/
def keys (c : Cache) : List String := (entries c).map Entry.key

/-- The first address of a list segment, or `n` when it is empty. -/
def first : List (Nat × Entry) → Option Nat → Option Nat
  | [], n => n
  | x :: _, _ => some x.1

/-- The last address of a list segment, or `p` when it is empty. -/
def last : Option Nat → List (Nat × Entry) → Option Nat
  | p, [] => p
  | _, x :: l => last (some x.1) l

/-- Segment predicate `seg mem p l n`: the heap holds the doubly-linked segment `l`: each address
of `l` holds its entry, with `next` the following address (`n` after the last
one) and `prev` the preceding address (`p` before the first one). -/
def seg (mem : Nat → Option CacheEntry) :
    Option Nat → List (Nat × Entry) → Option Nat → Prop
  | _, [], _ => True
  | p, x :: l, n =>
    mem x.1 = some ⟨x.2.key, x.2.data, x.2.size, first l n, p⟩ ∧ seg mem (some x.1) l n

/-- Representation predicate `Rep c l`: the cache `c` is the well-formed doubly-linked list `l` of
addresses and entries (head first): distinct allocated addresses, chained both
ways between `head` and `tail`, and `count` of them. -/
structure Rep (c : Cache) (l : List (Nat × Entry)) : Prop where
  nodup : (l.map Prod.fst).Nodup
  fresh : ∀ a ∈ l.map Prod.fst, a < c.brk
  links : seg c.mem none l none
  head_eq : c.head = first l none
  tail_eq : c.tail = last none l
  count_eq : c.count = l.length

/-- A well-formed cache. -/
def WF (c : Cache) : Prop := ∃ l, Rep c l

/-- Invariant `Inv c l`: a well-formed cache with pairwise distinct keys and no more
entries than `max_size` allows. -/
structure Inv (c : Cache) (l : List (Nat × Entry)) : Prop where
  rep : Rep c l
  uniq : (l.map fun x => x.2.key).Nodup
  bound : l.length ≤ c.max_size.toNat

/-- The entry a successful `put` of `p` stores. -/
def stored (p : String × List Nat × Nat) : Entry := ⟨p.1, some (p.2.1.take p.2.2), p.2.2⟩

/-- The keys of the cache a sequence of calls ends in, when it ends in one. -/
def final_keys (r : Except Fault (Option Cache)) : Option (List String) :=
  match r with
  | .ok (some c) => some (keys c)
  | _ => none

/-- The entries of the cache a sequence of calls ends in, when it ends in one. -/
def final_entries (r : Except Fault (Option Cache)) : Option (List Entry) :=
  match r with
  | .ok (some c) => some (entries c)
  | _ => none

/-- The fields `count` and `max_size` of the cache a sequence of calls ends in,
when it ends in one. -/
def final_count (r : Except Fault (Option Cache)) : Option (Int × Int) :=
  match r with
  | .ok (some c) => some (c.count, c.max_size)
  | _ => none

/-- The payload an existing entry holds after `add_to_cache` on its key. -/
def updated (x : Entry) (data : List Nat) (size : Nat) (m : Mallocs) : Entry :=
  if m.data then ⟨x.key, some (data.take size), size⟩ else ⟨x.key, none, x.size⟩

/-- A full cache of capacity 2: `B` at the head (address 1), `A` at the tail
(address 0), as left by `put A`, `put B` on a fresh cache. -/
def demo_full : Cache :=
  { head := some 1, tail := some 0, count := 2, max_size := 2,
    mem := fun a =>
      if a = 1 then some ⟨"B", some [2], 1, some 0, none⟩
      else if a = 0 then some ⟨"A", some [1], 1, none, some 1⟩
      else none,
    brk := 2, trace := [] }

/-- The same two entries in a cache of capacity 3. -/
def demo_room : Cache := { demo_full with max_size := 3 }

/-- A cache of capacity 1 holding `A` with the one byte `1`. -/
def demo_one : Cache :=
  { head := some 0, tail := some 0, count := 1, max_size := 1,
    mem := fun a => if a = 0 then some ⟨"A", some [1], 1, none, none⟩ else none,
    brk := 1, trace := [] }

/-- A sequence of `add_to_cache` calls of `prog_2_files_cache_fuzz.c` on the
same cache pointer. -/
def Fuzz.run : Option Cache → List Call → Except Fault (Option Cache)
  | cache, [] => .ok cache
  | cache, call :: rest =>
    match Fuzz.add_to_cache cache call.key call.data call.size call.mallocs with
    | .error f => .error f
    | .ok cache => Fuzz.run cache rest

/-- A heap block the cache code allocates: the `Cache` struct, the entry struct
at an address, and the key buffer and the data buffer of the entry at an
address. -/
inductive Block where
  | cache
  | entry (a : Nat)
  | key (a : Nat)
  | data (a : Nat)
deriving DecidableEq

/-- The blocks allocated and not freed after a trace (newest event first; a
block at the front was allocated last). -/
def outstanding : List Event → List Block
  | [] => []
  | Event.lock :: rest => outstanding rest
  | Event.unlock :: rest => outstanding rest
  | Event.malloc_cache :: rest => Block.cache :: outstanding rest
  | Event.malloc_entry a :: rest => Block.entry a :: outstanding rest
  | Event.malloc_key a :: rest => Block.key a :: outstanding rest
  | Event.malloc_data a :: rest => Block.data a :: outstanding rest
  | Event.free_entry a :: rest => (outstanding rest).erase (Block.entry a)
  | Event.free_key a :: rest => (outstanding rest).erase (Block.key a)
  | Event.free_data a :: rest => (outstanding rest).erase (Block.data a)

/-- The blocks the entries linked in the cache own, with the `Cache` struct. -/
def owned (c : Cache) : List Block :=
  (addrs c).foldr
    (fun a acc =>
      match c.mem a with
      | some e =>
        match e.data with
        | some _ => Block.data a :: Block.key a :: Block.entry a :: acc
        | none => Block.key a :: Block.entry a :: acc
      | none => acc)
    [Block.cache]

/-- The outstanding blocks after a sequence of calls, when it ends in a cache. -/
def final_outstanding (r : Except Fault (Option Cache)) : Option (List Block) :=
  match r with
  | .ok (some c) => some (outstanding c.trace)
  | _ => none

/-- The blocks owned by the cache a sequence of calls ends in. -/
def final_owned (r : Except Fault (Option Cache)) : Option (List Block) :=
  match r with
  | .ok (some c) => some (owned c)
  | _ => none

/-- The events of the cache a sequence of calls ends in, newest first. -/
def final_trace (r : Except Fault (Option Cache)) : Option (List Event) :=
  match r with
  | .ok (some c) => some c.trace
  | _ => none

/-- The cache struct and heap without the event trace. -/
def Cache.state (c : Cache) :
    Option Nat × Option Nat × Int × Int × (Nat → Option CacheEntry) × Nat :=
  (c.head, c.tail, c.count, c.max_size, c.mem, c.brk)

/-- Two results agree on everything but the event trace. -/
def same_state : Except Fault (Option Cache) → Except Fault (Option Cache) → Prop
  | .ok (some a), .ok (some b) => a.state = b.state
  | .ok none, .ok none => True
  | .error f, .error g => f = g
  | _, _ => False

/-- The events `after` extend `before` by one critical section: a `lock` first,
an `unlock` last, and neither of the two in between. -/
def locked_once (before after : List Event) : Prop :=
  ∃ mid, after = Event.unlock :: (mid ++ Event.lock :: before) ∧
    Event.lock ∉ mid ∧ Event.unlock ∉ mid

end LruCache

/-!
The doubly-linked list of `LR2_dynamic/prog_1_structs_ways.c`

A shallow embedding of `create_list`, `add_node` and `remove_node_by_id` (the
same code in `prog_1_structs_ways_fuzz.c`), over the same kind of heap as the
cache: `Node` structs by address, `none` for `NULL`, a bump allocator `brk`.
The `data` buffer of a node is kept inside the node. The struct `List` of the source
is called `DList` here.
-/

namespace NodeList

/-- The struct `node`. -/
structure Node where
  id : Int
  data : String
  next : Option Nat
  prev : Option Nat
deriving DecidableEq

/-- The struct `list` together with the heap its pointers point into. -/
structure DList where
  head : Option Nat
  tail : Option Nat
  size : Int
  mem : Nat → Option Node
  brk : Nat

/-- The function `create_list`: `ok` says whether `malloc(sizeof(List))` succeeds. -/
def create_list (ok : Bool) : Option DList :=
  if ok then some { head := none, tail := none, size := 0, mem := fun _ => none, brk := 0 }
  else none

/-- The function `add_node(list, id, data)`: `ok_node` and `ok_data` say whether
the two `malloc` calls succeed. The list pointer is dereferenced unchecked. -/
def add_node (list : Option DList) (id : Int) (data : String) (ok_node ok_data : Bool) :
    Except LruCache.Fault (Option DList) :=
  if ok_node then
    if ok_data then
      match list with
      | none => .error .dangling
      | some l =>
        let a := l.brk
        let new_node : Node := { id := id, data := data, next := none, prev := l.tail }
        let mem1 := Function.update l.mem a (some new_node)
        match l.tail with
        | some t =>
          match mem1 t with
          | none => .error .dangling
          | some tn =>
            .ok (some { l with
                        mem := Function.update mem1 t (some { tn with next := some a })
                        tail := some a
                        size := l.size + 1
                        brk := l.brk + 1 })
        | none =>
          .ok (some { l with
                      mem := mem1
                      head := some a
                      tail := some a
                      size := l.size + 1
                      brk := l.brk + 1 })
    else
      .ok (list.map fun l => { l with brk := l.brk + 1 })
  else
    .ok list

/-- The search loop of `remove_node_by_id`: walk `next` pointers from `current`
until a node with `current->id == id` is met. -/
def find_node (mem : Nat → Option Node) (id : Int) :
    Nat → Option Nat → Except LruCache.Fault (Option (Nat × Node))
  | _, none => .ok none
  | 0, some _ => .error .diverges
  | fuel + 1, some a =>
    match mem a with
    | none => .error .dangling
    | some n => if n.id = id then .ok (some (a, n)) else find_node mem id fuel n.next

/-- The first half of the unlinking in `remove_node_by_id`:
`if (current->prev) current->prev->next = current->next; else list->head = current->next;`
for the node `current` at address `a`. -/
def unlink_prev (l : DList) (a : Nat) : Except LruCache.Fault DList :=
  match l.mem a with
  | none => .error .dangling
  | some current =>
    match current.prev with
    | some p =>
      match l.mem p with
      | none => .error .dangling
      | some pn =>
        .ok { l with mem := Function.update l.mem p (some { pn with next := current.next }) }
    | none => .ok { l with head := current.next }

/-- The second half of the unlinking in `remove_node_by_id`:
`if (current->next) current->next->prev = current->prev; else list->tail = current->prev;`
followed by `free(current); list->size--;`. -/
def unlink_next (l : DList) (a : Nat) : Except LruCache.Fault DList :=
  match l.mem a with
  | none => .error .dangling
  | some current =>
    match current.next with
    | some q =>
      match l.mem q with
      | none => .error .dangling
      | some qn =>
        .ok { l with
              mem := Function.update
                (Function.update l.mem q (some { qn with prev := current.prev })) a none
              size := l.size - 1 }
    | none =>
      .ok { l with
            tail := current.prev
            mem := Function.update l.mem a none
            size := l.size - 1 }

/-- The function `remove_node_by_id(list, id)`: the return value and the list
afterwards. The search loop is given `brk + 1` steps: a chain of distinct node
structs is never longer than the number `brk` of structs ever allocated. -/
def remove_node_by_id (list : Option DList) (id : Int) :
    Except LruCache.Fault (Int × Option DList) :=
  match list with
  | none => .ok (-1, none)
  | some l =>
    match l.head with
    | none => .ok (-1, some l)
    | some _ =>
      match find_node l.mem id (l.brk + 1) l.head with
      | .error f => .error f
      | .ok none => .ok (-1, some l)
      | .ok (some (a, _)) =>
        match unlink_prev l a with
        | .error f => .error f
        | .ok l1 =>
          match unlink_next l1 a with
          | .error f => .error f
          | .ok l2 => .ok (0, some l2)

/-- The id and data a node holds. -/
structure Item where
  id : Int
  data : String
deriving DecidableEq

/-- Addresses met walking `next` pointers from `p`. -/
def walk_fwd (mem : Nat → Option Node) : Nat → Option Nat → List Nat
  | _, none => []
  | 0, some _ => []
  | fuel + 1, some a =>
    match mem a with
    | none => []
    | some n => a :: walk_fwd mem fuel n.next

/-- Addresses met walking `prev` pointers from `p`. -/
def walk_back (mem : Nat → Option Node) : Nat → Option Nat → List Nat
  | _, none => []
  | 0, some _ => []
  | fuel + 1, some a =>
    match mem a with
    | none => []
    | some n => a :: walk_back mem fuel n.prev

/-- The address and content of the node at an address. -/
def node_at (mem : Nat → Option Node) (a : Nat) : Option (Nat × Item) :=
  (mem a).map fun n => (a, ⟨n.id, n.data⟩)

/-- The nodes of the list forward from `head`, with their addresses. -/
def nodes (l : DList) : List (Nat × Item) :=
  (walk_fwd l.mem (l.brk + 1) l.head).filterMap (node_at l.mem)

/-- The nodes of the list backward from `tail`, with their addresses. -/
def nodes_back (l : DList) : List (Nat × Item) :=
  (walk_back l.mem (l.brk + 1) l.tail).filterMap (node_at l.mem)

/-- The ids of the list forward from `head`. -/
def ids (l : DList) : List Int := (nodes l).map fun x => x.2.id

/-- The first address of a list segment, or `n` when it is empty. -/
def nfirst : List (Nat × Item) → Option Nat → Option Nat
  | [], n => n
  | x :: _, _ => some x.1

/-- The last address of a list segment, or `p` when it is empty. -/
def nlast : Option Nat → List (Nat × Item) → Option Nat
  | p, [] => p
  | _, x :: l => nlast (some x.1) l

/-- Segment predicate `nseg mem p l n`: the heap holds the doubly-linked segment
`l`: each address of `l` holds its node, with `next` the following address (`n`
after the last one) and `prev` the preceding address (`p` before the first). -/
def nseg (mem : Nat → Option Node) : Option Nat → List (Nat × Item) → Option Nat → Prop
  | _, [], _ => True
  | p, x :: l, n => mem x.1 = some ⟨x.2.id, x.2.data, nfirst l n, p⟩ ∧ nseg mem (some x.1) l n

/-- Representation predicate `NRep l xs`: the list `l` is the well-formed
doubly-linked list `xs` of addresses and items (head first): distinct allocated
addresses, chained both ways between `head` and `tail`, and `size` of them. -/
structure NRep (l : DList) (xs : List (Nat × Item)) : Prop where
  nodup : (xs.map Prod.fst).Nodup
  fresh : ∀ a ∈ xs.map Prod.fst, a < l.brk
  links : nseg l.mem none xs none
  head_eq : l.head = nfirst xs none
  tail_eq : l.tail = nlast none xs
  size_eq : l.size = xs.length

/-- A well-formed doubly-linked list. -/
def NWF (l : DList) : Prop := ∃ xs, NRep l xs

/-- A sequence of `add_node` calls (all allocations succeeding) on the same
list pointer, in order. -/
def add_nodes : Option DList → List (Int × String) → Except LruCache.Fault (Option DList)
  | l, [] => .ok l
  | l, x :: rest =>
    match add_node l x.1 x.2 true true with
    | .error f => .error f
    | .ok l2 => add_nodes l2 rest

/-- The list `main` builds: nodes 1, 2, 3 at addresses 0, 1, 2. -/
def demo_list : DList :=
  { head := some 0, tail := some 2, size := 3,
    mem := fun a =>
      if a = 0 then some ⟨1, "First node", some 1, none⟩
      else if a = 1 then some ⟨2, "Second node", some 2, some 0⟩
      else if a = 2 then some ⟨3, "Third node", none, some 1⟩
      else none,
    brk := 3 }

/-- The return value and the nodes (forward and backward) after a call. -/
def outcome (r : Except LruCache.Fault (Int × Option DList)) :
    Option (Int × List (Nat × Item) × List (Nat × Item)) :=
  match r with
  | .ok (v, some l) => some (v, nodes l, nodes_back l)
  | _ => none

end NodeList

namespace LruCache

/-! ## List segments in the heap -/

@[simp]
theorem first_nil (n : Option Nat) : first [] n = n := rfl

@[simp]
theorem first_cons (x : Nat × Entry) (l : List (Nat × Entry)) (n : Option Nat) :
    first (x :: l) n = some x.1 := rfl

@[simp]
theorem last_nil (p : Option Nat) : last p [] = p := rfl

@[simp]
theorem last_cons (x : Nat × Entry) (l : List (Nat × Entry)) (p : Option Nat) :
    last p (x :: l) = last (some x.1) l := rfl

@[simp]
theorem seg_nil (mem : Nat → Option CacheEntry) (p n : Option Nat) :
    seg mem p [] n = True := rfl

theorem seg_cons (mem : Nat → Option CacheEntry) (p n : Option Nat) (x : Nat × Entry)
    (l : List (Nat × Entry)) :
    seg mem p (x :: l) n =
      (mem x.1 = some ⟨x.2.key, x.2.data, x.2.size, first l n, p⟩ ∧ seg mem (some x.1) l n) := rfl

theorem first_append (l1 l2 : List (Nat × Entry)) (n : Option Nat) :
    first (l1 ++ l2) n = first l1 (first l2 n) := by
  cases l1 <;> rfl

theorem last_append (p : Option Nat) (l1 l2 : List (Nat × Entry)) :
    last p (l1 ++ l2) = last (last p l1) l2 := by
  induction l1 generalizing p with
  | nil => rfl
  | cons x l1 ih => exact ih _

theorem seg_append (mem : Nat → Option CacheEntry) (p : Option Nat)
    (l1 l2 : List (Nat × Entry)) (n : Option Nat) :
    seg mem p (l1 ++ l2) n ↔ seg mem p l1 (first l2 n) ∧ seg mem (last p l1) l2 n := by
  induction l1 generalizing p with
  | nil => simp
  | cons x l1 ih =>
    show (mem x.1 = some ⟨_, _, _, first (l1 ++ l2) n, p⟩ ∧ seg mem (some x.1) (l1 ++ l2) n) ↔
      (mem x.1 = some ⟨_, _, _, first l1 (first l2 n), p⟩ ∧ seg mem (some x.1) l1 (first l2 n)) ∧
        seg mem (last (some x.1) l1) l2 n
    rw [ih, first_append, and_assoc]

theorem seg_congr {mem mem2 : Nat → Option CacheEntry} {p : Option Nat}
    {l : List (Nat × Entry)} {n : Option Nat}
    (h : ∀ a ∈ l.map Prod.fst, mem2 a = mem a) (hs : seg mem p l n) : seg mem2 p l n := by
  induction l generalizing p with
  | nil => trivial
  | cons x l ih =>
    refine ⟨?_, ih (fun a ha => h a (by simp at ha ⊢; exact Or.inr ha)) hs.2⟩
    rw [h x.1 (by simp)]
    exact hs.1

theorem length_le_of_nodup_lt {l : List Nat} {n : Nat} (hn : l.Nodup) (h : ∀ a ∈ l, a < n) :
    l.length ≤ n := by
  have h1 : l.toFinset ⊆ Finset.range n := by
    intro a ha
    simp at ha ⊢
    exact h a ha
  have h2 := Finset.card_le_card h1
  rw [List.toFinset_card_of_nodup hn, Finset.card_range] at h2
  exact h2

theorem find_entry_miss {mem : Nat → Option CacheEntry} {key : String}
    {l : List (Nat × Entry)} {p : Option Nat}
    (hs : seg mem p l none) (hk : ∀ x ∈ l, x.2.key ≠ key) (fuel : Nat) (hf : l.length ≤ fuel) :
    find_entry mem key fuel (first l none) = .ok none := by
  induction l generalizing p fuel with
  | nil => cases fuel <;> rfl
  | cons x l ih =>
    cases fuel with
    | zero => simp at hf
    | succ fuel =>
      have hx : x.2.key ≠ key := hk x (by simp)
      simp only [first_cons, find_entry, hs.1, if_neg hx]
      exact ih hs.2 (fun y hy => hk y (by simp [hy])) fuel (by simpa using hf)

theorem find_entry_hit {mem : Nat → Option CacheEntry} {key : String}
    {pre post : List (Nat × Entry)} {x : Nat × Entry} {p n : Option Nat}
    (hs : seg mem p (pre ++ x :: post) n) (hk : ∀ y ∈ pre, y.2.key ≠ key)
    (hx : x.2.key = key) (fuel : Nat) (hf : pre.length < fuel) :
    find_entry mem key fuel (first (pre ++ x :: post) n) =
      .ok (some (x.1, ⟨x.2.key, x.2.data, x.2.size, first post n, last p pre⟩)) := by
  induction pre generalizing p fuel with
  | nil =>
    cases fuel with
    | zero => simp at hf
    | succ fuel =>
      have h1 := hs.1
      simp only [List.nil_append] at h1 ⊢
      simp only [first_cons, find_entry, h1, if_pos hx, last_nil]
  | cons y pre ih =>
    cases fuel with
    | zero => simp at hf
    | succ fuel =>
      have hy : y.2.key ≠ key := hk y (by simp)
      have h1 := hs.1
      have h2 := hs.2
      simp only [List.cons_append, first_cons, find_entry, h1, if_neg hy, last_cons]
      exact ih h2 (fun z hz => hk z (by simp [hz])) fuel (by simpa using hf)

theorem split_first (l : List (Nat × Entry)) (key : String)
    (h : ∃ x ∈ l, x.2.key = key) :
    ∃ pre x post, l = pre ++ x :: post ∧ x.2.key = key ∧ ∀ y ∈ pre, y.2.key ≠ key := by
  induction l with
  | nil => simp at h
  | cons z l ih =>
    by_cases hz : z.2.key = key
    · exact ⟨[], z, l, rfl, hz, by simp⟩
    · obtain ⟨x, hxl, hx⟩ := h
      have hxl2 : x ∈ l := by
        rcases List.mem_cons.mp hxl with rfl | h2
        · exact absurd hx hz
        · exact h2
      obtain ⟨pre, x2, post, rfl, hx2, hpre⟩ := ih ⟨x, hxl2, hx⟩
      refine ⟨z :: pre, x2, post, rfl, hx2, ?_⟩
      intro y hy
      rcases List.mem_cons.mp hy with rfl | h2
      · exact hz
      · exact hpre y h2

theorem walk_next_seg {mem : Nat → Option CacheEntry} {l : List (Nat × Entry)} {p : Option Nat}
    (hs : seg mem p l none) (fuel : Nat) (hf : l.length ≤ fuel) :
    walk_next mem fuel (first l none) = l.map Prod.fst := by
  induction l generalizing p fuel with
  | nil => cases fuel <;> rfl
  | cons x l ih =>
    cases fuel with
    | zero => simp at hf
    | succ fuel =>
      simp only [first_cons, walk_next, hs.1, List.map_cons]
      rw [ih hs.2 fuel (by simpa using hf)]

theorem walk_prev_seg {mem : Nat → Option CacheEntry} (l : List (Nat × Entry)) :
    ∀ (n : Option Nat) (fuel : Nat), seg mem none l n → l.length ≤ fuel →
      walk_prev mem fuel (last none l) = (l.map Prod.fst).reverse := by
  induction l using List.reverseRecOn with
  | nil => intro n fuel _ _; cases fuel <;> rfl
  | append_singleton l x ih =>
    intro n fuel hs hf
    cases fuel with
    | zero => simp at hf
    | succ fuel =>
      rw [seg_append] at hs
      obtain ⟨h1, h2, _⟩ := hs
      simp only [last_append, last_cons, last_nil, walk_prev, h2, List.map_append, List.map_cons, List.map_nil,
        List.reverse_append, List.reverse_cons, List.reverse_nil, List.nil_append,
        List.singleton_append]
      rw [ih (first [x] n) fuel h1 (by simpa using hf)]

theorem filterMap_entry_at_seg {mem : Nat → Option CacheEntry} {l : List (Nat × Entry)}
    {p n : Option Nat} (hs : seg mem p l n) :
    (l.map Prod.fst).filterMap (entry_at mem) = l.map Prod.snd := by
  induction l generalizing p with
  | nil => rfl
  | cons x l ih =>
    have h1 : entry_at mem x.1 = some x.2 := by simp [entry_at, hs.1]
    simp only [List.map_cons, List.filterMap_cons, h1, ih hs.2]

theorem Rep.length_le {c : Cache} {l : List (Nat × Entry)} (h : Rep c l) : l.length ≤ c.brk := by
  have := length_le_of_nodup_lt h.nodup h.fresh
  simpa using this

theorem Rep.addrs_eq {c : Cache} {l : List (Nat × Entry)} (h : Rep c l) :
    addrs c = l.map Prod.fst := by
  unfold addrs
  rw [h.head_eq]
  exact walk_next_seg h.links _ (Nat.le_succ_of_le h.length_le)

theorem Rep.addrs_back_eq {c : Cache} {l : List (Nat × Entry)} (h : Rep c l) :
    addrs_back c = (l.map Prod.fst).reverse := by
  unfold addrs_back
  rw [h.tail_eq]
  exact walk_prev_seg l none _ h.links (Nat.le_succ_of_le h.length_le)

theorem Rep.entries_eq {c : Cache} {l : List (Nat × Entry)} (h : Rep c l) :
    entries c = l.map Prod.snd := by
  unfold entries
  rw [h.addrs_eq]
  exact filterMap_entry_at_seg h.links

theorem Rep.keys_eq {c : Cache} {l : List (Nat × Entry)} (h : Rep c l) :
    keys c = l.map (fun x => x.2.key) := by
  unfold keys
  rw [h.entries_eq, List.map_map]
  rfl

theorem Rep.of_eq {c c2 : Cache} {l : List (Nat × Entry)} (h : Rep c l)
    (hmem : c2.mem = c.mem) (hhead : c2.head = c.head) (htail : c2.tail = c.tail)
    (hcount : c2.count = c.count) (hbrk : c.brk ≤ c2.brk) : Rep c2 l where
  nodup := h.nodup
  fresh := fun a ha => lt_of_lt_of_le (h.fresh a ha) hbrk
  links := by rw [hmem]; exact h.links
  head_eq := by rw [hhead]; exact h.head_eq
  tail_eq := by rw [htail]; exact h.tail_eq
  count_eq := by rw [hcount]; exact h.count_eq

theorem last_some (a : Nat) (l : List (Nat × Entry)) : ∃ t, last (some a) l = some t := by
  induction l generalizing a with
  | nil => exact ⟨a, rfl⟩
  | cons x l ih => exact ih x.1

/-- Rewriting the payload of one entry in place. -/
theorem Rep.update {c : Cache} {pre post : List (Nat × Entry)} {x : Nat × Entry}
    (h : Rep c (pre ++ x :: post)) (y : Entry) (c2 : Cache)
    (hmem : c2.mem = Function.update c.mem x.1
      (some ⟨y.key, y.data, y.size, first post none, last none pre⟩))
    (hhead : c2.head = c.head) (htail : c2.tail = c.tail)
    (hcount : c2.count = c.count) (hbrk : c.brk ≤ c2.brk) :
    Rep c2 (pre ++ (x.1, y) :: post) := by
  have hnd := h.nodup
  simp only [List.map_append, List.map_cons] at hnd
  have hnd2 := List.nodup_append.mp hnd
  have hxpre : x.1 ∉ pre.map Prod.fst := fun hx => hnd2.2.2 hx (by simp)
  have hxpost : x.1 ∉ post.map Prod.fst := (List.nodup_cons.mp hnd2.2.1).1
  have hl := (seg_append _ _ _ _ _).mp h.links
  refine ⟨by simpa using hnd, ?_, ?_, ?_, ?_, ?_⟩
  · intro a ha
    exact lt_of_lt_of_le (h.fresh a (by simpa using ha)) hbrk
  · rw [seg_append, hmem]
    refine ⟨seg_congr ?_ hl.1, ?_, seg_congr ?_ hl.2.2⟩
    · intro a ha
      rw [Function.update_noteq]
      rintro rfl
      exact hxpre ha
    · simp
    · intro a ha
      rw [Function.update_noteq]
      rintro rfl
      exact hxpost ha
  · rw [hhead, h.head_eq]; simp [first_append]
  · rw [htail, h.tail_eq]; simp [last_append]
  · rw [hcount, h.count_eq]; simp

/-- Linking a new entry at a fresh address in front of the list. -/
theorem Rep.link {c : Cache} {l : List (Nat × Entry)} (h : Rep c l) (a : Nat)
    (ha : ∀ b ∈ l.map Prod.fst, b < a) (hb : a < c.brk) (key : String) (data : List Nat)
    (size : Nat) :
    ∃ c2, link_entry c a key data size = .ok c2 ∧
      Rep c2 ((a, ⟨key, some (data.take size), size⟩) :: l) ∧
      c2.max_size = c.max_size ∧ c2.brk = c.brk ∧ c2.trace = c.trace := by
  have hal : a ∉ l.map Prod.fst := fun hmem => lt_irrefl a (ha a hmem)
  cases l with
  | nil =>
    have hh : c.head = none := h.head_eq
    have ht : c.tail = none := h.tail_eq
    refine ⟨_, (by simp only [link_entry, hh, ht]; rfl), ?_, ?_, ?_, ?_⟩
    rotate_left
    · rfl
    · rfl
    · rfl
    refine ⟨by simp, ?_, ?_, rfl, rfl, ?_⟩
    · intro b hb2
      simp at hb2
      subst hb2
      exact hb
    · simp [seg_cons]
    · simp [h.count_eq]
  | cons x l2 =>
    have hh : c.head = some x.1 := h.head_eq
    obtain ⟨t, ht⟩ := last_some x.1 l2
    have ht2 : c.tail = some t := by rw [h.tail_eq]; exact ht
    have hxa : x.1 ≠ a := by
      rintro rfl
      exact hal (by simp)
    have hmx := h.links.1
    have hnd := List.nodup_cons.mp h.nodup
    refine ⟨_, (by simp only [link_entry, hh, ht2, Function.update_noteq hxa, hmx]; rfl), ?_,
      ?_, ?_, ?_⟩
    rotate_left
    · rfl
    · rfl
    · rfl
    refine ⟨?_, ?_, ?_, rfl, ?_, ?_⟩
    · exact List.nodup_cons.mpr ⟨hal, h.nodup⟩
    · intro b hb2
      rcases List.mem_cons.mp hb2 with rfl | hb3
      · exact hb
      · exact h.fresh b hb3
    · refine ⟨?_, ?_, seg_congr ?_ h.links.2⟩
      · simp [Function.update_noteq hxa.symm]
      · simp
      · intro b hb2
        have hbx : b ≠ x.1 := by
          rintro rfl
          exact hnd.1 hb2
        have hba : b ≠ a := by
          rintro rfl
          exact hal (by simp [hb2])
        simp [Function.update_noteq hbx, Function.update_noteq hba]
    · simp [ht]
    · simp [h.count_eq]

theorem eq_nil_or_snoc (l : List (Nat × Entry)) : l = [] ∨ ∃ l1 x, l = l1 ++ [x] := by
  rcases List.eq_nil_or_concat l with h | ⟨l1, x, h⟩
  · exact Or.inl h
  · exact Or.inr ⟨l1, x, by rw [h, List.concat_eq_append]⟩

theorem first_append_of_ne_nil {l1 : List (Nat × Entry)} (h : l1 ≠ []) (l2 : List (Nat × Entry))
    (n : Option Nat) : first (l1 ++ l2) n = first l1 none := by
  cases l1 with
  | nil => exact absurd rfl h
  | cons x l => rfl

/-- Unlinking the tail entry. -/
theorem Rep.drop_tail {c : Cache} {l1 : List (Nat × Entry)} {x : Nat × Entry}
    (h : Rep c (l1 ++ [x])) (c2 : Cache)
    (hmem : ∀ a ∈ l1.map Prod.fst,
      c2.mem a = (c.mem a).map fun e => if last none l1 = some a then { e with next := none } else e)
    (hhead : c2.head = first l1 none) (htail : c2.tail = last none l1)
    (hcount : c2.count = c.count - 1) (hbrk : c2.brk = c.brk) : Rep c2 l1 := by
  have hnd := h.nodup
  simp only [List.map_append, List.map_cons, List.map_nil] at hnd
  have hnd1 : (l1.map Prod.fst).Nodup := (List.nodup_append.mp hnd).1
  refine ⟨hnd1, ?_, ?_, hhead, htail, ?_⟩
  · intro a ha
    rw [hbrk]
    exact h.fresh a (by simp at ha ⊢; exact Or.inl ha)
  · have hl := ((seg_append _ _ _ _ _).mp h.links).1
    clear hhead htail hcount hbrk h hnd
    induction l1 using List.reverseRecOn with
    | nil => trivial
    | append_singleton l0 z _ =>
      rw [seg_append] at hl ⊢
      have hnd0 := List.nodup_append.mp (by simpa using hnd1 : (l0.map Prod.fst ++ [z.1]).Nodup)
      have hz0 : z.1 ∉ l0.map Prod.fst := fun hz => hnd0.2.2 hz (by simp)
      refine ⟨seg_congr ?_ hl.1, ?_, trivial⟩
      · intro a ha
        have haz : a ≠ z.1 := by
          rintro rfl
          exact hz0 ha
        rw [hmem a (by simp at ha ⊢; exact Or.inl ha)]
        have hne : ¬ (last none (l0 ++ [z]) = some a) := by
          simp [last_append]
          exact fun h => haz h.symm
        simp only [if_neg hne]
        cases c.mem a <;> rfl
      · rw [hmem z.1 (by simp), hl.2.1]
        simp [last_append]
  · rw [hcount, h.count_eq]; simp

theorem Rep.evict {c : Cache} {l : List (Nat × Entry)} (h : Rep c l) (fuel : Nat)
    (hf : (c.count - c.max_size).toNat ≤ fuel) :
    ∃ c2, evict_loop fuel c = .ok c2 ∧ Rep c2 (l.take c.max_size.toNat) ∧
      c2.max_size = c.max_size ∧ c2.brk = c.brk := by
  induction fuel generalizing c l with
  | zero =>
    have hle : c.count ≤ c.max_size := by omega
    have hlen : l.length ≤ c.max_size.toNat := by have := h.count_eq; omega
    refine ⟨c, ?_, ?_, rfl, rfl⟩
    · rw [evict_loop]; simp [not_lt.mpr hle]
    · rw [List.take_of_length_le hlen]; exact h
  | succ fuel ih =>
    by_cases hgt : c.count > c.max_size
    · rcases eq_nil_or_snoc l with rfl | ⟨l1, x, rfl⟩
      · have ht : c.tail = none := h.tail_eq
        refine ⟨c, ?_, ?_, rfl, rfl⟩
        · rw [evict_loop]; simp [hgt, ht]
        · simpa using h
      · have hcnt := h.count_eq
        have ht : c.tail = some x.1 := by rw [h.tail_eq]; simp [last_append]
        have hl := (seg_append _ _ _ _ _).mp h.links
        have hx := hl.2.1
        have hnd := h.nodup
        simp only [List.map_append, List.map_cons, List.map_nil] at hnd
        have hnd2 := List.nodup_append.mp hnd
        have hx1 : x.1 ∉ l1.map Prod.fst := fun hx1 => hnd2.2.2 hx1 (by simp)
        have htake : (l1 ++ [x]).take c.max_size.toNat = l1.take c.max_size.toNat := by
          apply List.take_append_of_le_length
          simp at hcnt
          omega
        rw [htake]
        rcases eq_nil_or_snoc l1 with rfl | ⟨l0, z, rfl⟩
        · simp only [last_nil] at hx
          have hstep : evict_loop (fuel + 1) c = evict_loop fuel
              { c with tail := none, head := none, mem := Function.update c.mem x.1 none,
                       count := c.count - 1, trace := Event.free_entry x.1 :: c.trace } := by
            rw [evict_loop]; simp only [hgt, if_true, ht, hx]
          have hrep : Rep
              { c with tail := none, head := none, mem := Function.update c.mem x.1 none,
                       count := c.count - 1, trace := Event.free_entry x.1 :: c.trace } [] :=
            Rep.drop_tail h _ (by simp) rfl rfl rfl rfl
          obtain ⟨c3, h3, hr3, hm3, hb3⟩ := ih hrep (by simp; omega)
          exact ⟨c3, by rw [hstep]; exact h3, hr3, hm3, hb3⟩
        · have hl1 := (seg_append _ _ _ _ _).mp hl.1
          have hz := hl1.2.1
          have hxp : last none (l0 ++ [z]) = some z.1 := by simp [last_append]
          rw [hxp] at hx
          have hzx : z.1 ≠ x.1 := by
            rintro h2
            exact hx1 (by simp [h2])
          have hstep : evict_loop (fuel + 1) c = evict_loop fuel
              { c with tail := some z.1,
                       mem := Function.update (Function.update c.mem z.1
                          (some ⟨z.2.key, z.2.data, z.2.size, none, last none l0⟩)) x.1 none,
                       count := c.count - 1, trace := Event.free_entry x.1 :: c.trace } := by
            rw [evict_loop]; simp only [hgt, if_true, ht, hx, hz]
          have hmem2 : ∀ a ∈ (l0 ++ [z]).map Prod.fst,
              Function.update (Function.update c.mem z.1
                (some ⟨z.2.key, z.2.data, z.2.size, none, last none l0⟩)) x.1 none a =
              (c.mem a).map fun e =>
                if last none (l0 ++ [z]) = some a then { e with next := none } else e := by
            intro a ha
            have hax : a ≠ x.1 := by
              rintro rfl
              exact hx1 ha
            rw [Function.update_noteq hax, hxp]
            by_cases haz : a = z.1
            · rw [haz, Function.update_same, hz]
              simp
            · rw [Function.update_noteq haz]
              have hne : ¬ (some z.1 = some a) := by
                simp only [Option.some.injEq]
                exact fun h => haz h.symm
              simp only [if_neg hne]
              cases c.mem a <;> rfl
          have hrep : Rep
              { c with tail := some z.1,
                       mem := Function.update (Function.update c.mem z.1
                          (some ⟨z.2.key, z.2.data, z.2.size, none, last none l0⟩)) x.1 none,
                       count := c.count - 1, trace := Event.free_entry x.1 :: c.trace }
              (l0 ++ [z]) :=
            Rep.drop_tail h _ hmem2
              (by
                have := h.head_eq
                rw [first_append_of_ne_nil (by simp)] at this
                exact this) hxp.symm rfl rfl
          obtain ⟨c3, h3, hr3, hm3, hb3⟩ := ih hrep (by simp; omega)
          exact ⟨c3, by rw [hstep]; exact h3, hr3, hm3, hb3⟩
    · have hlen : l.length ≤ c.max_size.toNat := by have := h.count_eq; omega
      refine ⟨c, ?_, ?_, rfl, rfl⟩
      · rw [evict_loop]; simp [hgt]
      · rw [List.take_of_length_le hlen]; exact h

theorem Rep.insert_ok {c : Cache} {l : List (Nat × Entry)} (h : Rep c l) (key : String)
    (data : List Nat) (size : Nat) :
    ∃ c2, insert_entry c key data size Mallocs.ok = .ok c2 ∧
      Rep c2 (((c.brk, ⟨key, some (data.take size), size⟩) :: l).take c.max_size.toNat) ∧
      c2.max_size = c.max_size ∧ c2.brk = c.brk + 1 := by
  have h1 : Rep { c with brk := c.brk + 1,
                         trace := Event.malloc_data c.brk :: Event.malloc_key c.brk ::
                           Event.malloc_entry c.brk :: c.trace } l :=
    h.of_eq rfl rfl rfl rfl (Nat.le_succ _)
  obtain ⟨c2, hc2, hr2, hm2, hb2, _⟩ := h1.link c.brk h.fresh (Nat.lt_succ_self _) key data size
  obtain ⟨c3, hc3, hr3, hm3, hb3⟩ := hr2.evict (c2.count - c2.max_size).toNat le_rfl
  refine ⟨unlock c3, ?_, ?_, ?_, ?_⟩
  · simp only [insert_entry, Mallocs.ok, if_true, hc2, hc3]
  · rw [hm2] at hr3
    exact hr3.of_eq rfl rfl rfl rfl le_rfl
  · show c3.max_size = c.max_size
    rw [hm3, hm2]
  · show c3.brk = c.brk + 1
    rw [hb3, hb2]

theorem insert_fail (c : Cache) (key : String) (data : List Nat) (size : Nat) (m : Mallocs)
    (hm : ¬ (m.entry = true ∧ m.key = true ∧ m.data = true)) :
    ∃ c2, insert_entry c key data size m = .ok c2 ∧ c2.mem = c.mem ∧ c2.head = c.head ∧
      c2.tail = c.tail ∧ c2.count = c.count ∧ c2.max_size = c.max_size ∧ c.brk ≤ c2.brk := by
  unfold insert_entry
  by_cases h1 : m.entry = true
  · by_cases h2 : m.key = true
    · have h3 : ¬ m.data = true := fun h3 => hm ⟨h1, h2, h3⟩
      simp only [h1, h2, h3, if_true, if_false]
      exact ⟨_, rfl, rfl, rfl, rfl, rfl, rfl, Nat.le_succ _⟩
    · simp only [h1, h2, if_true, if_false]
      exact ⟨_, rfl, rfl, rfl, rfl, rfl, rfl, Nat.le_succ _⟩
  · simp only [h1, if_false]
    exact ⟨_, rfl, rfl, rfl, rfl, rfl, rfl, le_rfl⟩

theorem update_entry_mem (c : Cache) (a : Nat) (e : CacheEntry) (data : List Nat) (size : Nat)
    (m : Mallocs) :
    (update_entry c a e data size m).mem = Function.update c.mem a
      (some (if m.data then { e with data := some (data.take size), size := size }
        else { e with data := none })) := by
  cases hd : m.data <;> simp [update_entry, hd]

theorem update_entry_fields (c : Cache) (a : Nat) (e : CacheEntry) (data : List Nat) (size : Nat)
    (m : Mallocs) :
    (update_entry c a e data size m).head = c.head ∧
    (update_entry c a e data size m).tail = c.tail ∧
    (update_entry c a e data size m).count = c.count ∧
    (update_entry c a e data size m).max_size = c.max_size ∧
    (update_entry c a e data size m).brk = c.brk := by
  cases hd : m.data <;> simp [update_entry, hd]

theorem Rep.add_hit {c : Cache} {pre post : List (Nat × Entry)} {x : Nat × Entry}
    (h : Rep c (pre ++ x :: post)) {key : String} (hx : x.2.key = key)
    (hpre : ∀ y ∈ pre, y.2.key ≠ key) (data : List Nat) (size : Nat) (m : Mallocs) :
    ∃ c2, add_to_cache (some c) (some key) (some data) size m = .ok (some c2) ∧
      Rep c2 (pre ++ (x.1, updated x.2 data size m) :: post) ∧
      c2.max_size = c.max_size ∧ c2.brk = c.brk := by
  have hlen : pre.length < c.brk + 1 := by
    have := h.length_le
    simp at this
    omega
  have hfind := find_entry_hit h.links hpre hx (c.brk + 1) hlen
  rw [← h.head_eq] at hfind
  refine ⟨_, (by simp only [add_to_cache, hfind]; rfl), ?_, ?_, ?_⟩
  rotate_left
  · exact (update_entry_fields _ _ _ _ _ _).2.2.2.1
  · exact (update_entry_fields _ _ _ _ _ _).2.2.2.2
  · have hf := update_entry_fields { c with trace := Event.lock :: c.trace } x.1
      ⟨x.2.key, x.2.data, x.2.size, first post none, last none pre⟩ data size m
    apply h.update _ _ _ hf.1 hf.2.1 hf.2.2.1 (le_of_eq hf.2.2.2.2.symm)
    rw [update_entry_mem]
    cases hd : m.data <;> simp [updated, hd]

theorem Rep.add_miss_ok {c : Cache} {l : List (Nat × Entry)} (h : Rep c l) {key : String}
    (hk : ∀ x ∈ l, x.2.key ≠ key) (data : List Nat) (size : Nat) :
    ∃ c2, add_to_cache (some c) (some key) (some data) size Mallocs.ok = .ok (some c2) ∧
      Rep c2 (((c.brk, ⟨key, some (data.take size), size⟩) :: l).take c.max_size.toNat) ∧
      c2.max_size = c.max_size ∧ c2.brk = c.brk + 1 := by
  have hfind := find_entry_miss h.links hk (c.brk + 1) (Nat.le_succ_of_le h.length_le)
  rw [← h.head_eq] at hfind
  have h1 : Rep { c with trace := Event.lock :: c.trace } l := h.of_eq rfl rfl rfl rfl le_rfl
  obtain ⟨c2, hc2, hr2, hm2, hb2⟩ := h1.insert_ok key data size
  exact ⟨c2, by simp only [add_to_cache, hfind, hc2], hr2, hm2, hb2⟩

theorem Rep.add_miss_fail {c : Cache} {l : List (Nat × Entry)} (h : Rep c l) {key : String}
    (hk : ∀ x ∈ l, x.2.key ≠ key) (data : List Nat) (size : Nat) (m : Mallocs)
    (hm : ¬ (m.entry = true ∧ m.key = true ∧ m.data = true)) :
    ∃ c2, add_to_cache (some c) (some key) (some data) size m = .ok (some c2) ∧
      c2.mem = c.mem ∧ c2.head = c.head ∧ c2.tail = c.tail ∧ c2.count = c.count ∧
      c2.max_size = c.max_size ∧ c.brk ≤ c2.brk := by
  have hfind := find_entry_miss h.links hk (c.brk + 1) (Nat.le_succ_of_le h.length_le)
  rw [← h.head_eq] at hfind
  obtain ⟨c2, hc2, hrest⟩ :=
    insert_fail { c with trace := Event.lock :: c.trace } key data size m hm
  exact ⟨c2, by simp only [add_to_cache, hfind, hc2], hrest⟩

/-! ## Invariants along a sequence of calls -/

theorem Inv.step {c : Cache} {l : List (Nat × Entry)} (h : Inv c l) (call : Call) :
    ∃ c2 l2, add_to_cache (some c) call.key call.data call.size call.mallocs = .ok (some c2) ∧
      Inv c2 l2 ∧ c2.max_size = c.max_size := by
  obtain ⟨key, data, size, m⟩ := call
  cases key with
  | none => exact ⟨c, l, rfl, h, rfl⟩
  | some key =>
    cases data with
    | none => exact ⟨c, l, rfl, h, rfl⟩
    | some data =>
      by_cases hmem : ∃ x ∈ l, x.2.key = key
      · obtain ⟨pre, x, post, rfl, hx, hpre⟩ := split_first l key hmem
        obtain ⟨c2, hc2, hr2, hm2, _⟩ := h.rep.add_hit hx hpre data size m
        refine ⟨c2, _, hc2, ⟨hr2, ?_, ?_⟩, hm2⟩
        · have hu := h.uniq
          have hk : (updated x.2 data size m).key = x.2.key := by
            unfold updated; split <;> rfl
          simpa [hk] using hu
        · rw [hm2]
          simpa using h.bound
      · have hk : ∀ x ∈ l, x.2.key ≠ key := fun x hx hxk => hmem ⟨x, hx, hxk⟩
        by_cases hm : m.entry = true ∧ m.key = true ∧ m.data = true
        · have hmok : m = Mallocs.ok := by
            obtain ⟨e, k, d⟩ := m
            simp only at hm
            obtain ⟨rfl, rfl, rfl⟩ := hm
            rfl
          subst hmok
          obtain ⟨c2, hc2, hr2, hm2, _⟩ := h.rep.add_miss_ok hk data size
          refine ⟨c2, _, hc2, ⟨hr2, ?_, ?_⟩, hm2⟩
          · have hsub : (((c.brk, (⟨key, some (data.take size), size⟩ : Entry)) :: l).take
                c.max_size.toNat).Sublist ((c.brk, ⟨key, some (data.take size), size⟩) :: l) :=
              List.take_sublist _ _
            refine List.Nodup.sublist (hsub.map _) ?_
            simp only [List.map_cons, List.nodup_cons]
            refine ⟨?_, h.uniq⟩
            intro hin
            obtain ⟨x, hx, hxk⟩ := List.mem_map.mp hin
            exact hk x hx hxk
          · rw [hm2, List.length_take]
            exact min_le_left _ _
        · obtain ⟨c2, hc2, h1, h2, h3, h4, h5, h6⟩ := h.rep.add_miss_fail hk data size m hm
          exact ⟨c2, l, hc2, ⟨h.rep.of_eq h1 h2 h3 h4 h6, h.uniq, by rw [h5]; exact h.bound⟩, h5⟩

theorem Inv.run_inv {c : Cache} {l : List (Nat × Entry)} (h : Inv c l) (calls : List Call) :
    ∃ c2 l2, run (some c) calls = .ok (some c2) ∧ Inv c2 l2 ∧ c2.max_size = c.max_size := by
  induction calls generalizing c l with
  | nil => exact ⟨c, l, rfl, h, rfl⟩
  | cons call rest ih =>
    obtain ⟨c1, l1, hc1, hi1, hm1⟩ := h.step call
    obtain ⟨c2, l2, hc2, hi2, hm2⟩ := ih hi1
    exact ⟨c2, l2, by simp only [run, hc1, hc2], hi2, by rw [hm2, hm1]⟩

theorem Inv.create (max_size : Int) :
    ∃ c, create_cache max_size true = some c ∧ Inv c [] ∧ c.max_size = max_size := by
  refine ⟨_, rfl, ⟨⟨List.nodup_nil, (fun a ha => by cases ha), trivial, rfl, rfl, rfl⟩,
    List.nodup_nil, Nat.zero_le _⟩, rfl⟩

theorem Inv.reach (max_size : Int) (calls : List Call) :
    ∃ c l, run (create_cache max_size true) calls = .ok (some c) ∧ Inv c l ∧
      c.max_size = max_size := by
  obtain ⟨c0, hc0, hi0, hm0⟩ := Inv.create max_size
  obtain ⟨c, l, hc, hi, hm⟩ := hi0.run_inv calls
  exact ⟨c, l, by rw [hc0]; exact hc, hi, by rw [hm, hm0]⟩

theorem run_append (cache : Option Cache) (xs ys : List Call) :
    run cache (xs ++ ys) =
      match run cache xs with
      | .error f => .error f
      | .ok c => run c ys := by
  induction xs generalizing cache with
  | nil => rfl
  | cons x xs ih =>
    simp only [List.cons_append, run]
    cases add_to_cache cache x.key x.data x.size x.mallocs with
    | error f => rfl
    | ok c => exact ih c

theorem Fuzz.insert_entry_eq (c : Cache) (key : String) (data : List Nat) (size : Nat)
    (m : Mallocs) (h : m.data = true ∨ m.entry = false ∨ m.key = false) :
    Fuzz.insert_entry c key data size m = LruCache.insert_entry c key data size m := by
  unfold Fuzz.insert_entry LruCache.insert_entry
  cases he : m.entry <;> cases hk : m.key <;> cases hd : m.data <;> simp_all

theorem Fuzz.add_to_cache_eq (cache : Option Cache) (key : Option String)
    (data : Option (List Nat)) (size : Nat) (m : Mallocs)
    (h : m.data = true ∨ m.entry = false ∨ m.key = false) :
    Fuzz.add_to_cache cache key data size m = LruCache.add_to_cache cache key data size m := by
  unfold Fuzz.add_to_cache LruCache.add_to_cache
  cases cache <;> cases key <;> cases data <;> simp only []
  rw [Fuzz.insert_entry_eq _ _ _ _ _ h]

theorem Rep.add_hit_fuzz {c : Cache} {pre post : List (Nat × Entry)} {x : Nat × Entry}
    (h : Rep c (pre ++ x :: post)) {key : String} (hx : x.2.key = key)
    (hpre : ∀ y ∈ pre, y.2.key ≠ key) (data : List Nat) (size : Nat) (m : Mallocs) :
    Fuzz.add_to_cache (some c) (some key) (some data) size m =
      add_to_cache (some c) (some key) (some data) size m := by
  have hlen : pre.length < c.brk + 1 := by
    have := h.length_le
    simp at this
    omega
  have hfind := find_entry_hit h.links hpre hx (c.brk + 1) hlen
  rw [← h.head_eq] at hfind
  simp only [Fuzz.add_to_cache, add_to_cache, hfind]

/-! ## Sequences of puts with distinct keys -/

theorem first_eq_head? (l : List (Nat × Entry)) : first l none = (l.map Prod.fst).head? := by
  cases l <;> rfl

theorem last_eq_getLast? (l : List (Nat × Entry)) :
    last none l = (l.map Prod.fst).getLast? := by
  induction l using List.reverseRecOn with
  | nil => rfl
  | append_singleton l x _ => simp [last_append]

theorem take_cons_take {α : Type} (n : Nat) (a : α) (l : List α) :
    (a :: l.take n).take n = (a :: l).take n := by
  cases n with
  | zero => rfl
  | succ k =>
    simp only [List.take_succ_cons, List.take_take]
    rw [min_eq_left (Nat.le_succ k)]

theorem take_reverse_eq {α : Type} (l : List α) (n : Nat) :
    l.reverse.take n = (l.drop (l.length - n)).reverse := by
  rw [List.reverse_drop]
  by_cases h : n ≤ l.length
  · congr 1
    omega
  · rw [List.take_of_length_le (by simp; omega), List.take_of_length_le (by simp; omega)]

theorem run_puts (cap : Int) (ps : List (String × List Nat × Nat))
    (hd : (ps.map Prod.fst).Nodup) :
    ∃ c l, run (create_cache cap true) (ps.map fun p => put p.1 p.2.1 p.2.2) = .ok (some c) ∧
      Rep c l ∧ c.max_size = cap ∧
      l.map Prod.snd = (ps.reverse.map stored).take cap.toNat := by
  induction ps using List.reverseRecOn with
  | nil =>
    obtain ⟨c, hc, hi, hm⟩ := Inv.create cap
    exact ⟨c, [], by rw [hc]; rfl, hi.rep, hm, by simp⟩
  | append_singleton ps p ih =>
    simp only [List.map_append, List.map_cons, List.map_nil] at hd
    have hd2 := List.nodup_append.mp hd
    obtain ⟨c, l, hc, hr, hm, hl⟩ := ih hd2.1
    have hk : ∀ x ∈ l, x.2.key ≠ p.1 := by
      intro x hx hxk
      have h1 : x.2 ∈ (ps.reverse.map stored).take cap.toNat := by
        rw [← hl]
        exact List.mem_map.mpr ⟨x, hx, rfl⟩
      have h2 := List.mem_of_mem_take h1
      obtain ⟨q, hq, hqx⟩ := List.mem_map.mp h2
      have h3 : q.1 = p.1 := by
        rw [← hxk, ← hqx]
        rfl
      have h4 : p.1 ∈ ps.map Prod.fst :=
        List.mem_map.mpr ⟨q, List.mem_reverse.mp hq, h3⟩
      exact hd2.2.2 h4 (by simp)
    obtain ⟨c2, hc2, hr2, hm2, _⟩ := hr.add_miss_ok hk p.2.1 p.2.2
    refine ⟨c2, _, ?_, hr2, by rw [hm2, hm], ?_⟩
    · rw [List.map_append, run_append, hc]
      simp only [List.map_cons, List.map_nil, run, put, hc2]
    · rw [hm, List.map_take, List.map_cons, hl]
      simp only [List.reverse_append, List.reverse_cons, List.reverse_nil, List.nil_append,
        List.singleton_append, List.map_cons]
      exact take_cons_take _ _ _

/-! ## The example caches are well formed -/

theorem demo_full_wf : WF demo_full :=
  ⟨[(1, ⟨"B", some [2], 1⟩), (0, ⟨"A", some [1], 1⟩)],
    by decide, by decide, by simp [seg_cons, demo_full], rfl, rfl, rfl⟩

theorem demo_room_wf : WF demo_room :=
  ⟨[(1, ⟨"B", some [2], 1⟩), (0, ⟨"A", some [1], 1⟩)],
    by decide, by decide, by simp [seg_cons, demo_room, demo_full], rfl, rfl, rfl⟩

theorem demo_one_wf : WF demo_one :=
  ⟨[(0, ⟨"A", some [1], 1⟩)], by decide, by decide, by simp [seg_cons, demo_one], rfl, rfl, rfl⟩

theorem not_mem_keys {c : Cache} {l : List (Nat × Entry)} (h : Rep c l) {key : String}
    (hkey : key ∉ keys c) : ∀ x ∈ l, x.2.key ≠ key := by
  intro x hx hxk
  apply hkey
  rw [h.keys_eq]
  exact List.mem_map.mpr ⟨x, hx, hxk⟩

theorem mem_keys {c : Cache} {l : List (Nat × Entry)} (h : Rep c l) {key : String}
    (hkey : key ∈ keys c) : ∃ x ∈ l, x.2.key = key := by
  rw [h.keys_eq] at hkey
  obtain ⟨x, hx, hxk⟩ := List.mem_map.mp hkey
  exact ⟨x, hx, hxk⟩

/-! ## A new key in a full cache -/

/-- C1 (as stated, refuted): capacity 2 and `put A`, `put B`, `put A` (in either
source file). The cache is then full (`count == max_size == 2`), holds `B` at
the head and `A` at the tail, and `A` holds the payload `[3]` of the latest
call, so `B` is the least recently used entry and `C` is absent. The following
`put C` evicts `A`, the entry used last, and keeps `B`. -/
theorem full_cache_evicts_entry_used_last :
    final_count (run (create_cache 2 true) [put "A" [1] 1, put "B" [2] 1, put "A" [3] 1])
      = some (2, 2) ∧
    final_entries (run (create_cache 2 true) [put "A" [1] 1, put "B" [2] 1, put "A" [3] 1])
      = some [⟨"B", some [2], 1⟩, ⟨"A", some [3], 1⟩] ∧
    final_entries (run (create_cache 2 true)
      [put "A" [1] 1, put "B" [2] 1, put "A" [3] 1, put "C" [4] 1])
      = some [⟨"C", some [4], 1⟩, ⟨"B", some [2], 1⟩] ∧
    final_entries (Fuzz.run (create_cache 2 true) [put "A" [1] 1, put "B" [2] 1, put "A" [3] 1])
      = some [⟨"B", some [2], 1⟩, ⟨"A", some [3], 1⟩] ∧
    final_entries (Fuzz.run (create_cache 2 true)
      [put "A" [1] 1, put "B" [2] 1, put "A" [3] 1, put "C" [4] 1])
      = some [⟨"C", some [4], 1⟩, ⟨"B", some [2], 1⟩] := by
  refine ⟨?_, ?_, ?_, ?_, ?_⟩ <;> decide!

/-- C1 (amended): on a well-formed cache with `max_size >= 1` and
`count == max_size`, a successful `add_to_cache` of an absent key (in either
source file) returns, puts the new entry at the head (at the fresh address
`brk`), drops exactly the entry at the tail of the list (whichever entry that
is: an update leaves its entry in place, so the tail need not be the least
recently used one), keeps every other entry in its order, and leaves `count`
unchanged. -/
theorem add_to_cache_full_evicts_tail (c : Cache) (key : String) (data : List Nat) (size : Nat)
    (hwf : WF c) (hcap : 1 ≤ c.max_size) (hfull : c.count = c.max_size)
    (hkey : key ∉ keys c) :
    ∃ c2, add_to_cache (some c) (some key) (some data) size Mallocs.ok = .ok (some c2) ∧
      Fuzz.add_to_cache (some c) (some key) (some data) size Mallocs.ok = .ok (some c2) ∧
      WF c2 ∧
      c2.head = some c.brk ∧ c.brk ∉ addrs c ∧
      (addrs c).getLast? = c.tail ∧
      addrs c2 = c.brk :: (addrs c).dropLast ∧
      entries c2 = ⟨key, some (data.take size), size⟩ :: (entries c).dropLast ∧
      c2.count = c.count ∧ c2.max_size = c.max_size := by
  obtain ⟨l, h⟩ := hwf
  obtain ⟨c2, hc2, hr2, hm2, _⟩ := h.add_miss_ok (not_mem_keys h hkey) data size
  have hlen : l.length = c.max_size.toNat := by have := h.count_eq; omega
  have htake : ((c.brk, (⟨key, some (data.take size), size⟩ : Entry)) :: l).take c.max_size.toNat
      = (c.brk, ⟨key, some (data.take size), size⟩) :: l.dropLast := by
    have hpos : c.max_size.toNat = (l.length - 1) + 1 := by omega
    rw [hpos, List.take_succ_cons, List.dropLast_eq_take]
  rw [htake] at hr2
  refine ⟨c2, hc2, ?_, ⟨_, hr2⟩, ?_, ?_, ?_, ?_, ?_, ?_, hm2⟩
  · rw [Fuzz.add_to_cache_eq _ _ _ _ _ (Or.inl rfl)]
    exact hc2
  · rw [hr2.head_eq]; rfl
  · rw [h.addrs_eq]
    exact fun hin => lt_irrefl _ (h.fresh _ hin)
  · rw [h.addrs_eq, h.tail_eq, last_eq_getLast?]
  · rw [hr2.addrs_eq, h.addrs_eq]
    simp [List.map_dropLast]
  · rw [hr2.entries_eq, h.entries_eq]
    simp [List.map_dropLast]
  · rw [hr2.count_eq, h.count_eq]
    have : 1 ≤ l.length := by omega
    simp
    omega

/-- C1 (amended) at a concrete input: the full cache `B, A` of capacity 2 and
the new key `C`: the result holds `C, B`. -/
theorem add_to_cache_full_evicts_tail_witness :
    WF demo_full ∧ 1 ≤ demo_full.max_size ∧ demo_full.count = demo_full.max_size ∧
      "C" ∉ keys demo_full ∧
      final_entries (add_to_cache (some demo_full) (some "C") (some [3]) 1 Mallocs.ok) =
        some [⟨"C", some [3], 1⟩, ⟨"B", some [2], 1⟩] := by
  refine ⟨demo_full_wf, by decide, by decide, by decide, ?_⟩
  obtain ⟨c2, hc2, _, _, _, _, _, _, he, _⟩ :=
    add_to_cache_full_evicts_tail demo_full "C" [3] 1 demo_full_wf (by decide) (by decide)
      (by decide)
  rw [hc2]
  show some (entries c2) = _
  rw [he]
  decide


/-! ## An existing key keeps its place -/

/-- C2 (as stated, refuted): with capacity 2, after `put A`, `put B`, the second
`put A` leaves `B` at the head and `A` at the tail, and the following `put C`
evicts `A` and keeps `B`. -/
theorem update_does_not_promote :
    final_keys (run (create_cache 2 true) [put "A" [1] 1, put "B" [2] 1]) = some ["B", "A"] ∧
    final_keys (run (create_cache 2 true) [put "A" [1] 1, put "B" [2] 1, put "A" [3] 1])
      = some ["B", "A"] ∧
    final_keys (run (create_cache 2 true)
      [put "A" [1] 1, put "B" [2] 1, put "A" [3] 1, put "C" [4] 1]) = some ["C", "B"] := by
  refine ⟨?_, ?_, ?_⟩ <;> decide!

/-- C2 (amended): on a well-formed cache, `add_to_cache` of a key already
present (in either source file, whatever the allocation outcome) returns and
leaves the recency list as it was: the same addresses in the same order, the
same keys in the same order, the same `head` and `tail`. An update does not
refresh recency. -/
theorem add_to_cache_existing_keeps_position (c : Cache) (key : String) (data : List Nat)
    (size : Nat) (m : Mallocs) (hwf : WF c) (hkey : key ∈ keys c) :
    ∃ c2, add_to_cache (some c) (some key) (some data) size m = .ok (some c2) ∧
      Fuzz.add_to_cache (some c) (some key) (some data) size m = .ok (some c2) ∧
      WF c2 ∧ addrs c2 = addrs c ∧ keys c2 = keys c ∧
      c2.head = c.head ∧ c2.tail = c.tail := by
  obtain ⟨l, h⟩ := hwf
  obtain ⟨pre, x, post, rfl, hx, hpre⟩ := split_first l key (mem_keys h hkey)
  obtain ⟨c2, hc2, hr2, _, _⟩ := h.add_hit hx hpre data size m
  have hk : (updated x.2 data size m).key = x.2.key := by
    unfold updated; split <;> rfl
  refine ⟨c2, hc2, ?_, ⟨_, hr2⟩, ?_, ?_, ?_, ?_⟩
  · rw [h.add_hit_fuzz hx hpre]
    exact hc2
  · rw [hr2.addrs_eq, h.addrs_eq]; simp
  · rw [hr2.keys_eq, h.keys_eq]; simp [hk]
  · rw [hr2.head_eq, h.head_eq]; simp [first_append]
  · rw [hr2.tail_eq, h.tail_eq]; simp [last_append]

/-- C2 (amended) at a concrete input: updating the tail key `A` of the cache
`B, A` leaves the keys in the order `B, A`. -/
theorem add_to_cache_existing_keeps_position_witness :
    WF demo_full ∧ "A" ∈ keys demo_full ∧
      final_keys (add_to_cache (some demo_full) (some "A") (some [3]) 1 Mallocs.ok) =
        some ["B", "A"] := by
  refine ⟨demo_full_wf, by decide, ?_⟩
  obtain ⟨c2, hc2, _, _, _, hk, _⟩ :=
    add_to_cache_existing_keeps_position demo_full "A" [3] 1 Mallocs.ok demo_full_wf (by decide)
  rw [hc2]
  show some (keys c2) = _
  rw [hk]
  decide

/-! ## Sequences of calls on a fresh cache -/

/-- C3: for every capacity `cap >= 1` and every sequence `ps` of puts with
pairwise distinct keys (all allocations succeeding) on a fresh cache, the run
returns a cache whose entries are exactly the last `min n cap` puts, most
recently inserted first, and every earlier key is absent. -/
theorem distinct_puts_keep_last (cap : Int) (hcap : 1 ≤ cap)
    (ps : List (String × List Nat × Nat)) (hd : (ps.map Prod.fst).Nodup) :
    ∃ c, run (create_cache cap true) (ps.map fun p => put p.1 p.2.1 p.2.2) = .ok (some c) ∧
      entries c = (ps.reverse.map stored).take cap.toNat ∧
      keys c = ((ps.map Prod.fst).reverse).take cap.toNat ∧
      ((keys c).length : Int) = min (ps.length : Int) cap ∧
      ∀ k ∈ (ps.map Prod.fst).take (ps.length - cap.toNat), k ∉ keys c := by
  obtain ⟨c, l, hc, hr, _, hl⟩ := run_puts cap ps hd
  have he : entries c = (ps.reverse.map stored).take cap.toNat := by rw [hr.entries_eq, hl]
  have hkeys : keys c = ((ps.map Prod.fst).reverse).take cap.toNat := by
    unfold keys
    rw [he, ← List.map_take, List.map_map, ← List.map_reverse, ← List.map_take]
    rfl
  refine ⟨c, hc, he, hkeys, ?_, ?_⟩
  · rw [hkeys]
    simp only [List.length_take, List.length_reverse, List.length_map]
    omega
  · intro k hk1 hk2
    rw [hkeys] at hk2
    have hsplit : ps.map Prod.fst =
        (ps.map Prod.fst).take (ps.length - cap.toNat) ++
          (ps.map Prod.fst).drop (ps.length - cap.toNat) := (List.take_append_drop _ _).symm
    rw [hsplit] at hd
    rw [← List.length_map ps Prod.fst] at hd hk1
    have hdis := (List.nodup_append.mp hd).2.2
    apply hdis hk1
    have hrev : ((ps.map Prod.fst).reverse).take cap.toNat =
        ((ps.map Prod.fst).drop ((ps.map Prod.fst).length - cap.toNat)).reverse := by
      exact take_reverse_eq _ _
    rw [hrev] at hk2
    exact List.mem_reverse.mp hk2

/-- C3 at the input of the spec: capacity 2 and `put(A,1)`, `put(B,2)`, `put(C,3)`
leave exactly `C` then `B`. -/
theorem distinct_puts_keep_last_witness :
    (1 : Int) ≤ 2 ∧ (["A", "B", "C"] : List String).Nodup ∧
      final_keys (run (create_cache 2 true) [put "A" [1] 1, put "B" [2] 1, put "C" [3] 1]) =
        some ["C", "B"] := by
  refine ⟨by decide, by decide, ?_⟩
  obtain ⟨c, hc, _, hk, _, _⟩ :=
    distinct_puts_keep_last 2 (by decide) [("A", [1], 1), ("B", [2], 1), ("C", [3], 1)]
      (by decide)
  have hc2 : run (create_cache 2 true) [put "A" [1] 1, put "B" [2] 1, put "C" [3] 1] =
      .ok (some c) := hc
  rw [hc2]
  show some (keys c) = _
  rw [hk]
  decide

/-- C4: for every capacity `cap >= 1` and every sequence of `add_to_cache` calls
(any arguments, any allocation outcomes) on a cache made by `create_cache`, the
run returns and `0 <= count <= max_size = cap` holds in the cache it ends in;
every prefix of a sequence is a sequence, so this holds after each call. -/
theorem count_within_capacity (cap : Int) (hcap : 1 ≤ cap) (calls : List Call) :
    ∃ c, run (create_cache cap true) calls = .ok (some c) ∧
      0 ≤ c.count ∧ c.count ≤ c.max_size ∧ c.max_size = cap := by
  obtain ⟨c, l, hc, hi, hm⟩ := Inv.reach cap calls
  have h1 := hi.rep.count_eq
  have h2 := hi.bound
  refine ⟨c, hc, ?_, ?_, hm⟩
  · omega
  · omega

/-- C4 at a concrete input: capacity 2 and four calls, one of them with a
failing allocation. -/
theorem count_within_capacity_witness :
    (1 : Int) ≤ 2 ∧
      ∃ c, run (create_cache 2 true)
          [put "A" [1] 1, put "B" [2] 1, ⟨some "C", some [3], 1, ⟨true, false, true⟩⟩,
            put "D" [4] 1] = .ok (some c) ∧
        0 ≤ c.count ∧ c.count ≤ c.max_size ∧ c.max_size = 2 :=
  ⟨by decide, count_within_capacity 2 (by decide) _⟩

/-- C5: for every capacity, every sequence of `add_to_cache` calls (any
arguments, any allocation outcomes) on a fresh cache and every key `k`, the run
returns a cache with at most one entry whose key is `k`; every prefix of a
sequence is a sequence, so this holds after each call. -/
theorem keys_unique (cap : Int) (calls : List Call) (k : String) :
    ∃ c, run (create_cache cap true) calls = .ok (some c) ∧
      (entries c).countP (fun e => e.key = k) ≤ 1 ∧ (keys c).Nodup := by
  obtain ⟨c, l, hc, hi, _⟩ := Inv.reach cap calls
  have hn : (keys c).Nodup := by rw [hi.rep.keys_eq]; exact hi.uniq
  refine ⟨c, hc, ?_, hn⟩
  have h1 := List.nodup_iff_count_le_one.mp hn k
  unfold keys at h1
  rw [List.count, List.countP_map] at h1
  have h2 : (entries c).countP (fun e => decide (e.key = k)) =
      (entries c).countP ((fun x => x == k) ∘ Entry.key) := by
    apply List.countP_congr
    intro e _
    simp
  rw [h2]
  exact h1

/-! ## Replacing the payload of an existing key -/

/-- C6: on a well-formed cache, `add_to_cache` of a key already present, with
the data allocation succeeding, returns, leaves `count`, the addresses and the
keys unchanged, and rewrites exactly the first entry with that key, which then
holds the first `size` bytes of `data` and `size`; every other entry keeps its
payload. -/
theorem add_to_cache_existing_replaces_payload (c : Cache) (key : String) (data : List Nat)
    (size : Nat) (m : Mallocs) (hm : m.data = true) (hwf : WF c) (hkey : key ∈ keys c) :
    ∃ c2, add_to_cache (some c) (some key) (some data) size m = .ok (some c2) ∧
      WF c2 ∧ c2.count = c.count ∧ addrs c2 = addrs c ∧ keys c2 = keys c ∧
      ∃ pre x post, entries c = pre ++ x :: post ∧ x.key = key ∧
        (∀ y ∈ pre, y.key ≠ key) ∧
        entries c2 = pre ++ ⟨key, some (data.take size), size⟩ :: post := by
  obtain ⟨l, h⟩ := hwf
  obtain ⟨pre, x, post, rfl, hx, hpre⟩ := split_first l key (mem_keys h hkey)
  obtain ⟨c2, hc2, hr2, _, _⟩ := h.add_hit hx hpre data size m
  have hu : updated x.2 data size m = ⟨key, some (data.take size), size⟩ := by
    simp [updated, hm, hx]
  rw [hu] at hr2
  refine ⟨c2, hc2, ⟨_, hr2⟩, ?_, ?_, ?_, pre.map Prod.snd, x.2, post.map Prod.snd, ?_, hx, ?_, ?_⟩
  · rw [hr2.count_eq, h.count_eq]; simp
  · rw [hr2.addrs_eq, h.addrs_eq]; simp
  · rw [hr2.keys_eq, h.keys_eq]; simp [hx]
  · rw [h.entries_eq]; simp
  · intro y hy
    obtain ⟨z, hz, rfl⟩ := List.mem_map.mp hy
    exact hpre z hz
  · rw [hr2.entries_eq]; simp

/-- C6 at the input of the spec: capacity 1 holding `put(A,1)`; `put(A,2)` leaves
`count == 1` and the value of `A` is `2`. -/
theorem add_to_cache_existing_replaces_payload_witness :
    Mallocs.ok.data = true ∧ WF demo_one ∧ "A" ∈ keys demo_one ∧
      ∃ c2, add_to_cache (some demo_one) (some "A") (some [2]) 1 Mallocs.ok = .ok (some c2) ∧
        c2.count = 1 ∧ entries c2 = [⟨"A", some [2], 1⟩] := by
  refine ⟨rfl, demo_one_wf, by decide, ?_⟩
  obtain ⟨c2, hc2, _, hcount, _, _, pre, x, post, h1, hx, hpre, h2⟩ :=
    add_to_cache_existing_replaces_payload demo_one "A" [2] 1 Mallocs.ok rfl demo_one_wf
      (by decide)
  refine ⟨c2, hc2, by rw [hcount]; rfl, ?_⟩
  have he : entries demo_one = [⟨"A", some [1], 1⟩] := by decide
  rw [he] at h1
  cases pre with
  | nil =>
    simp only [List.nil_append, List.cons.injEq] at h1
    rw [h2, ← h1.2]
    rfl
  | cons y pre =>
    cases pre <;> simp at h1

/-! ## A new key with room left -/

/-- C7: on a well-formed cache with `count < max_size`, a successful
`add_to_cache` of an absent key returns, creates the entry with the given key
and payload at the head (at the fresh address `brk`), removes nothing, keeps
the existing entries in their order, and increases `count` by one. -/
theorem add_to_cache_room_inserts_head (c : Cache) (key : String) (data : List Nat)
    (size : Nat) (hwf : WF c) (hroom : c.count < c.max_size) (hkey : key ∉ keys c) :
    ∃ c2, add_to_cache (some c) (some key) (some data) size Mallocs.ok = .ok (some c2) ∧
      WF c2 ∧
      c2.head = some c.brk ∧ c.brk ∉ addrs c ∧
      addrs c2 = c.brk :: addrs c ∧
      entries c2 = ⟨key, some (data.take size), size⟩ :: entries c ∧
      c2.count = c.count + 1 ∧ c2.max_size = c.max_size := by
  obtain ⟨l, h⟩ := hwf
  obtain ⟨c2, hc2, hr2, hm2, _⟩ := h.add_miss_ok (not_mem_keys h hkey) data size
  have htake : ((c.brk, (⟨key, some (data.take size), size⟩ : Entry)) :: l).take c.max_size.toNat
      = (c.brk, ⟨key, some (data.take size), size⟩) :: l := by
    apply List.take_of_length_le
    have := h.count_eq
    simp only [List.length_cons]
    omega
  rw [htake] at hr2
  refine ⟨c2, hc2, ⟨_, hr2⟩, ?_, ?_, ?_, ?_, ?_, hm2⟩
  · rw [hr2.head_eq]; rfl
  · rw [h.addrs_eq]
    exact fun hin => lt_irrefl _ (h.fresh _ hin)
  · rw [hr2.addrs_eq, h.addrs_eq]; rfl
  · rw [hr2.entries_eq, h.entries_eq]; rfl
  · rw [hr2.count_eq, h.count_eq]
    simp

/-- C7 at a concrete input: the cache `B, A` of capacity 3 and the new key `C`:
the result holds `C, B, A` and `count` is 3. -/
theorem add_to_cache_room_inserts_head_witness :
    WF demo_room ∧ demo_room.count < demo_room.max_size ∧ "C" ∉ keys demo_room ∧
      ∃ c2, add_to_cache (some demo_room) (some "C") (some [3]) 1 Mallocs.ok = .ok (some c2) ∧
        entries c2 = [⟨"C", some [3], 1⟩, ⟨"B", some [2], 1⟩, ⟨"A", some [1], 1⟩] ∧
        c2.count = 3 := by
  refine ⟨demo_room_wf, by decide, by decide, ?_⟩
  obtain ⟨c2, hc2, _, _, _, _, he, hcount, _⟩ :=
    add_to_cache_room_inserts_head demo_room "C" [3] 1 demo_room_wf (by decide) (by decide)
  refine ⟨c2, hc2, ?_, ?_⟩
  · rw [he]; decide
  · rw [hcount]; decide

/-! ## Allocation failure -/

/-- C8 (failing input): a cache of capacity 1 holding `A` with data `[1]`;
`add_to_cache` of `A` with data `[2]` whose data allocation fails (in either
source file) leaves the entry of `A` with a `NULL` data pointer and its old
size. -/
theorem failed_update_drops_data :
    final_entries (run (create_cache 1 true) [put "A" [1] 1]) = some [⟨"A", some [1], 1⟩] ∧
    final_entries (run (create_cache 1 true)
      [put "A" [1] 1, ⟨some "A", some [2], 1, ⟨true, true, false⟩⟩]) = some [⟨"A", none, 1⟩] ∧
    entries demo_one = [⟨"A", some [1], 1⟩] ∧
    final_entries (add_to_cache (some demo_one) (some "A") (some [2]) 1 ⟨true, true, false⟩)
      = some [⟨"A", none, 1⟩] ∧
    final_entries (Fuzz.add_to_cache (some demo_one) (some "A") (some [2]) 1 ⟨true, true, false⟩)
      = some [⟨"A", none, 1⟩] := by
  refine ⟨?_, ?_, ?_, ?_, ?_⟩ <;> decide!

/-- On the new-key path an allocation failure leaves the cache as it was: the
heap, `head`, `tail`, `count` and `max_size` are unchanged. -/
theorem add_to_cache_new_key_failure_unchanged (c : Cache) (key : String) (data : List Nat)
    (size : Nat) (m : Mallocs) (hwf : WF c) (hkey : key ∉ keys c)
    (hm : ¬ (m.entry = true ∧ m.key = true ∧ m.data = true)) :
    ∃ c2, add_to_cache (some c) (some key) (some data) size m = .ok (some c2) ∧
      c2.mem = c.mem ∧ c2.head = c.head ∧ c2.tail = c.tail ∧ c2.count = c.count ∧
      c2.max_size = c.max_size := by
  obtain ⟨l, h⟩ := hwf
  have hk : ∀ x ∈ l, x.2.key ≠ key := by
    intro x hx hxk
    apply hkey
    rw [h.keys_eq]
    exact List.mem_map.mpr ⟨x, hx, hxk⟩
  obtain ⟨c2, hc2, h1, h2, h3, h4, h5, _⟩ := h.add_miss_fail hk data size m hm
  exact ⟨c2, hc2, h1, h2, h3, h4, h5⟩

/-! ## `create_cache` -/

/-- C9 (as stated, refuted): `create_cache` returns a cache for capacity `0`
and for capacity `-1`. -/
theorem create_cache_accepts_nonpositive :
    (create_cache 0 true).isSome = true ∧ (create_cache (-1) true).isSome = true := by
  decide

/-- C9 (amended): for every capacity, `create_cache` returns an empty cache
(`count` 0, `head` and `tail` `NULL`, no entries, the given `max_size`) when
its allocation succeeds, and `NULL` only when the allocation fails. -/
theorem create_cache_empty (max_size : Int) :
    (∃ c, create_cache max_size true = some c ∧ c.head = none ∧ c.tail = none ∧
      c.count = 0 ∧ c.max_size = max_size ∧ entries c = [] ∧ WF c) ∧
    create_cache max_size false = none := by
  refine ⟨⟨_, rfl, rfl, rfl, rfl, rfl, rfl, ?_⟩, rfl⟩
  obtain ⟨c, hc, hi, _⟩ := Inv.create max_size
  simp only [create_cache, if_true, Option.some.injEq] at hc
  subst hc
  exact ⟨[], hi.rep⟩

/-! ## The list and its count -/

/-- C10: for every capacity and every sequence of `add_to_cache` calls (any
arguments, any allocation outcomes, failures included) on a cache made by
`create_cache`, the run returns a cache in which `count` is the number of
entries linked from `head` along `next`, that walk ends at `tail`, the walk
from `tail` along `prev` meets the same entries in reverse, and `head` and
`tail` are `NULL` exactly when `count` is 0. -/
theorem count_is_list_length (cap : Int) (calls : List Call) :
    ∃ c, run (create_cache cap true) calls = .ok (some c) ∧
      c.count = (addrs c).length ∧
      (addrs c).head? = c.head ∧ (addrs c).getLast? = c.tail ∧
      addrs_back c = (addrs c).reverse ∧
      ((c.head = none ∧ c.tail = none) ↔ c.count = 0) ∧
      (c.head = none ↔ c.count = 0) ∧ (c.tail = none ↔ c.count = 0) := by
  obtain ⟨c, l, hc, hi, _⟩ := Inv.reach cap calls
  have hr := hi.rep
  have hcount : c.count = (addrs c).length := by rw [hr.addrs_eq, hr.count_eq]; simp
  have hhead : (addrs c).head? = c.head := by
    rw [hr.addrs_eq, hr.head_eq, first_eq_head?]
  have htail : (addrs c).getLast? = c.tail := by
    rw [hr.addrs_eq, hr.tail_eq, last_eq_getLast?]
  have hh0 : c.head = none ↔ c.count = 0 := by
    rw [← hhead, hcount]
    cases addrs c with
    | nil => simp
    | cons a as =>
      simp
      omega
  have ht0 : c.tail = none ↔ c.count = 0 := by
    rw [← htail, hcount]
    cases hA : addrs c with
    | nil => simp
    | cons a as =>
      rw [List.getLast?_eq_getLast _ (List.cons_ne_nil a as)]
      simp
      omega
  refine ⟨c, hc, hcount, hhead, htail, ?_, ?_, hh0, ht0⟩
  · rw [hr.addrs_back_eq, hr.addrs_eq]
  · constructor
    · exact fun h => hh0.mp h.1
    · exact fun h => ⟨hh0.mpr h, ht0.mpr h⟩

/-! ## What a call adds to the event trace -/

theorem evict_loop_trace (fuel : Nat) (c c2 : Cache) (h : evict_loop fuel c = .ok c2) :
    ∃ mid, c2.trace = mid ++ c.trace ∧ ∀ e ∈ mid, ∃ a, e = Event.free_entry a := by
  induction fuel generalizing c with
  | zero =>
    rw [evict_loop] at h
    split at h
    · split at h
      · cases h
        exact ⟨[], rfl, fun e he => by cases he⟩
      · cases h
    · cases h
      exact ⟨[], rfl, fun e he => by cases he⟩
  | succ fuel ih =>
    rw [evict_loop] at h
    split at h
    · split at h
      · cases h
        exact ⟨[], rfl, fun e he => by cases he⟩
      · simp only at h
        split at h
        · cases h
        · split at h
          · split at h
            · cases h
            · obtain ⟨mid, hmid, hall⟩ := ih _ h
              refine ⟨mid ++ [Event.free_entry _], (by rw [hmid, List.append_assoc]; rfl), ?_⟩
              intro e he
              rcases List.mem_append.mp he with h1 | h1
              · exact hall e h1
              · exact ⟨_, List.mem_singleton.mp h1⟩
          · obtain ⟨mid, hmid, hall⟩ := ih _ h
            refine ⟨mid ++ [Event.free_entry _], (by rw [hmid, List.append_assoc]; rfl), ?_⟩
            intro e he
            rcases List.mem_append.mp he with h1 | h1
            · exact hall e h1
            · exact ⟨_, List.mem_singleton.mp h1⟩
    · cases h
      exact ⟨[], rfl, fun e he => by cases he⟩

theorem link_entry_trace (c c2 : Cache) (a : Nat) (key : String) (data : List Nat) (size : Nat)
    (h : link_entry c a key data size = .ok c2) : c2.trace = c.trace := by
  unfold link_entry at h
  simp only at h
  split at h
  · split at h
    · cases h
    · cases h
      rfl
  · cases h
    rfl

theorem insert_entry_trace (c c2 : Cache) (key : String) (data : List Nat) (size : Nat)
    (m : Mallocs) (h : insert_entry c key data size m = .ok c2) :
    ∃ mid, c2.trace = Event.unlock :: (mid ++ c.trace) ∧
      Event.lock ∉ mid ∧ Event.unlock ∉ mid := by
  unfold insert_entry at h
  by_cases he : m.entry = true
  · by_cases hk : m.key = true
    · by_cases hd : m.data = true
      · simp only [he, hk, hd, if_true] at h
        split at h
        · cases h
        · rename_i c3 hlink
          have ht3 := link_entry_trace _ _ _ _ _ _ hlink
          split at h
          · cases h
          · rename_i c4 hev
            obtain ⟨mid, hmid, hall⟩ := evict_loop_trace _ _ _ hev
            cases h
            refine ⟨mid ++ [Event.malloc_data c.brk, Event.malloc_key c.brk,
              Event.malloc_entry c.brk], ?_, ?_, ?_⟩
            · show Event.unlock :: c4.trace = _
              rw [hmid, ht3]
              simp
            · intro hin
              rcases List.mem_append.mp hin with h1 | h1
              · obtain ⟨a, ha⟩ := hall _ h1
                cases ha
              · simp at h1
            · intro hin
              rcases List.mem_append.mp hin with h1 | h1
              · obtain ⟨a, ha⟩ := hall _ h1
                cases ha
              · simp at h1
      · simp only [he, hk, hd, if_true, if_false] at h
        cases h
        exact ⟨[Event.free_entry c.brk, Event.malloc_key c.brk, Event.malloc_entry c.brk],
          rfl, by simp, by simp⟩
    · simp only [he, hk, if_true, if_false] at h
      cases h
      exact ⟨[Event.free_entry c.brk, Event.malloc_entry c.brk], rfl, by simp, by simp⟩
  · simp only [he, if_false] at h
    cases h
    exact ⟨[], rfl, by simp, by simp⟩

theorem fuzz_insert_entry_trace (c c2 : Cache) (key : String) (data : List Nat) (size : Nat)
    (m : Mallocs) (h : Fuzz.insert_entry c key data size m = .ok c2) :
    ∃ mid, c2.trace = Event.unlock :: (mid ++ c.trace) ∧
      Event.lock ∉ mid ∧ Event.unlock ∉ mid := by
  by_cases hm : m.data = true ∨ m.entry = false ∨ m.key = false
  · rw [Fuzz.insert_entry_eq _ _ _ _ _ hm] at h
    exact LruCache.insert_entry_trace _ _ _ _ _ _ h
  · have he : m.entry = true := by
      cases hx : m.entry
      · exact absurd (Or.inr (Or.inl hx)) hm
      · rfl
    have hk : m.key = true := by
      cases hx : m.key
      · exact absurd (Or.inr (Or.inr hx)) hm
      · rfl
    have hd : ¬ m.data = true := fun hx => hm (Or.inl hx)
    unfold Fuzz.insert_entry at h
    simp only [he, hk, hd, if_true, if_false] at h
    cases h
    exact ⟨[Event.free_entry c.brk, Event.free_key c.brk, Event.malloc_key c.brk,
      Event.malloc_entry c.brk], rfl, by simp, by simp⟩

theorem update_entry_trace (c : Cache) (a : Nat) (e : CacheEntry) (data : List Nat) (size : Nat)
    (m : Mallocs) :
    ∃ mid, (update_entry c a e data size m).trace = Event.unlock :: (mid ++ c.trace) ∧
      Event.lock ∉ mid ∧ Event.unlock ∉ mid := by
  unfold update_entry
  cases hd : m.data <;> cases hx : e.data
  · exact ⟨[], by simp, by simp, by simp⟩
  · exact ⟨[Event.free_data a], by simp, by simp, by simp⟩
  · exact ⟨[Event.malloc_data a], by simp, by simp, by simp⟩
  · exact ⟨[Event.malloc_data a, Event.free_data a], by simp, by simp, by simp⟩

/-- Every return of `add_to_cache` with non-null arguments has taken the lock
once and released it last. -/
theorem add_to_cache_trace (c c2 : Cache) (key : String) (data : List Nat) (size : Nat)
    (m : Mallocs) (h : add_to_cache (some c) (some key) (some data) size m = .ok (some c2)) :
    locked_once c.trace c2.trace := by
  unfold add_to_cache at h
  simp only at h
  split at h
  · cases h
  · rename_i a e hfind
    simp only [Except.ok.injEq, Option.some.injEq] at h
    subst h
    exact update_entry_trace _ _ _ _ _ _
  · split at h
    · cases h
    · rename_i c3 hins
      simp only [Except.ok.injEq, Option.some.injEq] at h
      subst h
      exact insert_entry_trace _ _ _ _ _ _ hins

theorem fuzz_add_to_cache_trace (c c2 : Cache) (key : String) (data : List Nat) (size : Nat)
    (m : Mallocs)
    (h : Fuzz.add_to_cache (some c) (some key) (some data) size m = .ok (some c2)) :
    locked_once c.trace c2.trace := by
  unfold Fuzz.add_to_cache at h
  simp only at h
  split at h
  · cases h
  · rename_i a e hfind
    simp only [Except.ok.injEq, Option.some.injEq] at h
    subst h
    exact update_entry_trace _ _ _ _ _ _
  · split at h
    · cases h
    · rename_i c3 hins
      simp only [Except.ok.injEq, Option.some.injEq] at h
      subst h
      exact fuzz_insert_entry_trace _ _ _ _ _ _ hins

theorem same_state_refl (r : Except Fault (Option Cache)) : same_state r r := by
  rcases r with f | (_ | c)
  · exact rfl
  · trivial
  · exact rfl

/-- The function `add_to_cache` of the two source files leaves the same cache struct and heap
for every input; they can differ in the event trace only. -/
theorem Fuzz.add_to_cache_same_state (cache : Option Cache) (key : Option String)
    (data : Option (List Nat)) (size : Nat) (m : Mallocs) :
    same_state (Fuzz.add_to_cache cache key data size m)
      (LruCache.add_to_cache cache key data size m) := by
  by_cases hm : m.data = true ∨ m.entry = false ∨ m.key = false
  · rw [Fuzz.add_to_cache_eq _ _ _ _ _ hm]
    exact same_state_refl _
  · have he : m.entry = true := by
      cases hx : m.entry
      · exact absurd (Or.inr (Or.inl hx)) hm
      · rfl
    have hk : m.key = true := by
      cases hx : m.key
      · exact absurd (Or.inr (Or.inr hx)) hm
      · rfl
    have hd : ¬ m.data = true := fun hx => hm (Or.inl hx)
    rcases cache with _ | c
    · exact same_state_refl _
    rcases key with _ | key
    · exact same_state_refl _
    rcases data with _ | data
    · exact same_state_refl _
    unfold Fuzz.add_to_cache LruCache.add_to_cache
    simp only
    rcases hf : find_entry c.mem key (c.brk + 1) c.head with f | (_ | ae)
    · exact rfl
    · simp only [Fuzz.insert_entry, LruCache.insert_entry, he, hk, hd, if_true, if_false]
      exact rfl
    · exact rfl

theorem Rep.add_returns {c : Cache} {l : List (Nat × Entry)} (h : Rep c l) (key : String)
    (data : List Nat) (size : Nat) (m : Mallocs) :
    ∃ c2, add_to_cache (some c) (some key) (some data) size m = .ok (some c2) := by
  by_cases hmem : ∃ x ∈ l, x.2.key = key
  · obtain ⟨pre, x, post, rfl, hx, hpre⟩ := split_first l key hmem
    obtain ⟨c2, hc2, _⟩ := h.add_hit hx hpre data size m
    exact ⟨c2, hc2⟩
  · have hk : ∀ x ∈ l, x.2.key ≠ key := fun x hx hxk => hmem ⟨x, hx, hxk⟩
    by_cases hm : m.entry = true ∧ m.key = true ∧ m.data = true
    · have hmok : m = Mallocs.ok := by
        obtain ⟨e, k, d⟩ := m
        simp only at hm
        obtain ⟨rfl, rfl, rfl⟩ := hm
        rfl
      subst hmok
      obtain ⟨c2, hc2, _⟩ := h.add_miss_ok hk data size
      exact ⟨c2, hc2⟩
    · obtain ⟨c2, hc2, _⟩ := h.add_miss_fail hk data size m hm
      exact ⟨c2, hc2⟩

theorem Rep.add_returns_fuzz {c : Cache} {l : List (Nat × Entry)} (h : Rep c l) (key : String)
    (data : List Nat) (size : Nat) (m : Mallocs) :
    ∃ c2, Fuzz.add_to_cache (some c) (some key) (some data) size m = .ok (some c2) := by
  obtain ⟨c2, hc2⟩ := h.add_returns key data size m
  have hs := Fuzz.add_to_cache_same_state (some c) (some key) (some data) size m
  rw [hc2] at hs
  rcases hr : Fuzz.add_to_cache (some c) (some key) (some data) size m with f | (_ | c3)
  · rw [hr] at hs
    exact hs.elim
  · rw [hr] at hs
    exact hs.elim
  · exact ⟨c3, rfl⟩

/-! ## The lock -/

/-- C12: on a well-formed cache, every call of `add_to_cache` with non-null
key and data (in either source file, whatever the allocation outcomes: update
hit, failed update, any failed new-entry allocation, insert with or without
eviction) returns, and the events it adds are one `lock`, then events that are
neither `lock` nor `unlock`, then one `unlock` as the last event before the
return. -/
theorem add_to_cache_locks_once (c : Cache) (key : String) (data : List Nat) (size : Nat)
    (m : Mallocs) (hwf : WF c) :
    (∃ c2, add_to_cache (some c) (some key) (some data) size m = .ok (some c2) ∧
      locked_once c.trace c2.trace) ∧
    (∃ c3, Fuzz.add_to_cache (some c) (some key) (some data) size m = .ok (some c3) ∧
      locked_once c.trace c3.trace) := by
  obtain ⟨l, h⟩ := hwf
  obtain ⟨c2, hc2⟩ := h.add_returns key data size m
  obtain ⟨c3, hc3⟩ := h.add_returns_fuzz key data size m
  exact ⟨⟨c2, hc2, add_to_cache_trace _ _ _ _ _ _ hc2⟩,
    ⟨c3, hc3, fuzz_add_to_cache_trace _ _ _ _ _ _ hc3⟩⟩

/-- C12 at a concrete input: the full cache `B, A` and a new key whose data
allocation fails. -/
theorem add_to_cache_locks_once_witness :
    WF demo_full ∧
      (∃ c2, add_to_cache (some demo_full) (some "C") (some [3]) 1 ⟨true, true, false⟩ =
          .ok (some c2) ∧ locked_once demo_full.trace c2.trace) ∧
      (∃ c3, Fuzz.add_to_cache (some demo_full) (some "C") (some [3]) 1 ⟨true, true, false⟩ =
          .ok (some c3) ∧ locked_once demo_full.trace c3.trace) :=
  ⟨demo_full_wf, add_to_cache_locks_once demo_full "C" [3] 1 ⟨true, true, false⟩ demo_full_wf⟩

/-! ## What eviction releases -/

/-- C11 (failing input): capacity 1, `put A`, `put B` (N = 1, M = 1, in either
source file). The eviction of `A` (address 0) frees the entry struct only: the
key buffer and the data buffer of address 0 stay allocated, beside the blocks
of the one entry still in the cache. -/
theorem eviction_leaks_key_and_data :
    final_trace (run (create_cache 1 true) [put "A" [1] 1, put "B" [2] 1]) =
      some [Event.unlock, Event.free_entry 0, Event.malloc_data 1, Event.malloc_key 1,
        Event.malloc_entry 1, Event.lock, Event.unlock, Event.malloc_data 0,
        Event.malloc_key 0, Event.malloc_entry 0, Event.lock, Event.malloc_cache] ∧
    final_outstanding (run (create_cache 1 true) [put "A" [1] 1, put "B" [2] 1]) =
      some [Block.data 1, Block.key 1, Block.entry 1, Block.data 0, Block.key 0, Block.cache] ∧
    final_owned (run (create_cache 1 true) [put "A" [1] 1, put "B" [2] 1]) =
      some [Block.data 1, Block.key 1, Block.entry 1, Block.cache] ∧
    final_outstanding (Fuzz.run (create_cache 1 true) [put "A" [1] 1, put "B" [2] 1]) =
      some [Block.data 1, Block.key 1, Block.entry 1, Block.data 0, Block.key 0, Block.cache] ∧
    final_owned (Fuzz.run (create_cache 1 true) [put "A" [1] 1, put "B" [2] 1]) =
      some [Block.data 1, Block.key 1, Block.entry 1, Block.cache] := by
  refine ⟨?_, ?_, ?_, ?_, ?_⟩ <;> decide!

/-! ## The two source files -/

/-- C13 (failing input): a fresh cache of capacity 1 and `add_to_cache` of `A`
whose entry and key allocations succeed and whose data allocation fails. The
original frees the entry struct only and leaves the key copy allocated; the
fuzz variant frees the key copy as well. -/
theorem fuzz_frees_key_on_data_failure :
    final_trace (add_to_cache (create_cache 1 true) (some "A") (some [1]) 1
        ⟨true, true, false⟩) =
      some [Event.unlock, Event.free_entry 0, Event.malloc_key 0, Event.malloc_entry 0,
        Event.lock, Event.malloc_cache] ∧
    final_trace (Fuzz.add_to_cache (create_cache 1 true) (some "A") (some [1]) 1
        ⟨true, true, false⟩) =
      some [Event.unlock, Event.free_entry 0, Event.free_key 0, Event.malloc_key 0,
        Event.malloc_entry 0, Event.lock, Event.malloc_cache] ∧
    final_outstanding (add_to_cache (create_cache 1 true) (some "A") (some [1]) 1
        ⟨true, true, false⟩) = some [Block.key 0, Block.cache] ∧
    final_outstanding (Fuzz.add_to_cache (create_cache 1 true) (some "A") (some [1]) 1
        ⟨true, true, false⟩) = some [Block.cache] := by
  refine ⟨?_, ?_, ?_, ?_⟩ <;> decide!

end LruCache

namespace NodeList

/-! ## List segments of nodes in the heap -/

@[simp]
theorem nfirst_nil (n : Option Nat) : nfirst [] n = n := rfl

@[simp]
theorem nfirst_cons (x : Nat × Item) (l : List (Nat × Item)) (n : Option Nat) :
    nfirst (x :: l) n = some x.1 := rfl

@[simp]
theorem nlast_nil (p : Option Nat) : nlast p [] = p := rfl

@[simp]
theorem nlast_cons (x : Nat × Item) (l : List (Nat × Item)) (p : Option Nat) :
    nlast p (x :: l) = nlast (some x.1) l := rfl

@[simp]
theorem nseg_nil (mem : Nat → Option Node) (p n : Option Nat) : nseg mem p [] n = True := rfl

theorem nseg_cons (mem : Nat → Option Node) (p n : Option Nat) (x : Nat × Item)
    (l : List (Nat × Item)) :
    nseg mem p (x :: l) n =
      (mem x.1 = some ⟨x.2.id, x.2.data, nfirst l n, p⟩ ∧ nseg mem (some x.1) l n) := rfl

theorem nfirst_append (l1 l2 : List (Nat × Item)) (n : Option Nat) :
    nfirst (l1 ++ l2) n = nfirst l1 (nfirst l2 n) := by
  cases l1 <;> rfl

theorem nlast_append (p : Option Nat) (l1 l2 : List (Nat × Item)) :
    nlast p (l1 ++ l2) = nlast (nlast p l1) l2 := by
  induction l1 generalizing p with
  | nil => rfl
  | cons x l1 ih => exact ih _

theorem nlast_snoc (p : Option Nat) (l : List (Nat × Item)) (x : Nat × Item) :
    nlast p (l ++ [x]) = some x.1 := by
  rw [nlast_append]
  rfl

theorem nseg_append (mem : Nat → Option Node) (p : Option Nat)
    (l1 l2 : List (Nat × Item)) (n : Option Nat) :
    nseg mem p (l1 ++ l2) n ↔ nseg mem p l1 (nfirst l2 n) ∧ nseg mem (nlast p l1) l2 n := by
  induction l1 generalizing p with
  | nil => simp
  | cons x l1 ih =>
    show (mem x.1 = some ⟨_, _, nfirst (l1 ++ l2) n, p⟩ ∧ nseg mem (some x.1) (l1 ++ l2) n) ↔
      (mem x.1 = some ⟨_, _, nfirst l1 (nfirst l2 n), p⟩ ∧ nseg mem (some x.1) l1 (nfirst l2 n)) ∧
        nseg mem (nlast (some x.1) l1) l2 n
    rw [ih, nfirst_append, and_assoc]

theorem nseg_congr {mem mem2 : Nat → Option Node} {p : Option Nat}
    {l : List (Nat × Item)} {n : Option Nat}
    (h : ∀ a ∈ l.map Prod.fst, mem2 a = mem a) (hs : nseg mem p l n) : nseg mem2 p l n := by
  induction l generalizing p with
  | nil => trivial
  | cons x l ih =>
    refine ⟨?_, ih (fun a ha => h a (by simp at ha ⊢; exact Or.inr ha)) hs.2⟩
    rw [h x.1 (by simp)]
    exact hs.1

theorem snoc_cases (l : List (Nat × Item)) : l = [] ∨ ∃ l1 x, l = l1 ++ [x] := by
  rcases List.eq_nil_or_concat l with h | ⟨l1, x, h⟩
  · exact Or.inl h
  · exact Or.inr ⟨l1, x, by rw [h, List.concat_eq_append]⟩

theorem find_node_miss {mem : Nat → Option Node} {id : Int}
    {l : List (Nat × Item)} {p : Option Nat}
    (hs : nseg mem p l none) (hk : ∀ x ∈ l, x.2.id ≠ id) (fuel : Nat) (hf : l.length ≤ fuel) :
    find_node mem id fuel (nfirst l none) = .ok none := by
  induction l generalizing p fuel with
  | nil => cases fuel <;> rfl
  | cons x l ih =>
    cases fuel with
    | zero => simp at hf
    | succ fuel =>
      have hx : x.2.id ≠ id := hk x (by simp)
      simp only [nfirst_cons, find_node, hs.1, if_neg hx]
      exact ih hs.2 (fun y hy => hk y (by simp [hy])) fuel (by simpa using hf)

theorem find_node_hit {mem : Nat → Option Node} {id : Int}
    {pre post : List (Nat × Item)} {x : Nat × Item} {p n : Option Nat}
    (hs : nseg mem p (pre ++ x :: post) n) (hk : ∀ y ∈ pre, y.2.id ≠ id)
    (hx : x.2.id = id) (fuel : Nat) (hf : pre.length < fuel) :
    find_node mem id fuel (nfirst (pre ++ x :: post) n) =
      .ok (some (x.1, ⟨x.2.id, x.2.data, nfirst post n, nlast p pre⟩)) := by
  induction pre generalizing p fuel with
  | nil =>
    cases fuel with
    | zero => simp at hf
    | succ fuel =>
      have h1 := hs.1
      simp only [List.nil_append] at h1 ⊢
      simp only [nfirst_cons, find_node, h1, if_pos hx, nlast_nil]
  | cons y pre ih =>
    cases fuel with
    | zero => simp at hf
    | succ fuel =>
      have hy : y.2.id ≠ id := hk y (by simp)
      have h1 := hs.1
      have h2 := hs.2
      simp only [List.cons_append, nfirst_cons, find_node, h1, if_neg hy, nlast_cons]
      exact ih h2 (fun z hz => hk z (by simp [hz])) fuel (by simpa using hf)

theorem split_first_id (l : List (Nat × Item)) (id : Int) (h : ∃ x ∈ l, x.2.id = id) :
    ∃ pre x post, l = pre ++ x :: post ∧ x.2.id = id ∧ ∀ y ∈ pre, y.2.id ≠ id := by
  induction l with
  | nil => simp at h
  | cons z l ih =>
    by_cases hz : z.2.id = id
    · exact ⟨[], z, l, rfl, hz, by simp⟩
    · obtain ⟨x, hxl, hx⟩ := h
      have hxl2 : x ∈ l := by
        rcases List.mem_cons.mp hxl with rfl | h2
        · exact absurd hx hz
        · exact h2
      obtain ⟨pre, x2, post, rfl, hx2, hpre⟩ := ih ⟨x, hxl2, hx⟩
      refine ⟨z :: pre, x2, post, rfl, hx2, ?_⟩
      intro y hy
      rcases List.mem_cons.mp hy with rfl | h2
      · exact hz
      · exact hpre y h2

theorem walk_fwd_nseg {mem : Nat → Option Node} {l : List (Nat × Item)} {p : Option Nat}
    (hs : nseg mem p l none) (fuel : Nat) (hf : l.length ≤ fuel) :
    walk_fwd mem fuel (nfirst l none) = l.map Prod.fst := by
  induction l generalizing p fuel with
  | nil => cases fuel <;> rfl
  | cons x l ih =>
    cases fuel with
    | zero => simp at hf
    | succ fuel =>
      simp only [nfirst_cons, walk_fwd, hs.1, List.map_cons]
      rw [ih hs.2 fuel (by simpa using hf)]

theorem walk_back_nseg {mem : Nat → Option Node} (l : List (Nat × Item)) :
    ∀ (n : Option Nat) (fuel : Nat), nseg mem none l n → l.length ≤ fuel →
      walk_back mem fuel (nlast none l) = (l.map Prod.fst).reverse := by
  induction l using List.reverseRecOn with
  | nil => intro n fuel _ _; cases fuel <;> rfl
  | append_singleton l x ih =>
    intro n fuel hs hf
    cases fuel with
    | zero => simp at hf
    | succ fuel =>
      rw [nseg_append] at hs
      obtain ⟨h1, h2, _⟩ := hs
      simp only [nlast_append, nlast_cons, nlast_nil, walk_back, h2, List.map_append,
        List.map_cons, List.map_nil, List.reverse_append, List.reverse_cons, List.reverse_nil,
        List.nil_append, List.singleton_append]
      rw [ih (nfirst [x] n) fuel h1 (by simpa using hf)]

theorem filterMap_node_at_nseg {mem : Nat → Option Node} {l : List (Nat × Item)}
    {p n : Option Nat} (hs : nseg mem p l n) :
    (l.map Prod.fst).filterMap (node_at mem) = l := by
  induction l generalizing p with
  | nil => rfl
  | cons x l ih =>
    have h1 : node_at mem x.1 = some x := by simp [node_at, hs.1]
    simp only [List.map_cons, List.filterMap_cons, h1, ih hs.2]

theorem filterMap_node_at_reverse {mem : Nat → Option Node} {l : List (Nat × Item)}
    {p n : Option Nat} (hs : nseg mem p l n) :
    (l.map Prod.fst).reverse.filterMap (node_at mem) = l.reverse := by
  rw [List.filterMap_reverse, filterMap_node_at_nseg hs]

theorem NRep.length_le_brk {l : DList} {xs : List (Nat × Item)} (h : NRep l xs) :
    xs.length ≤ l.brk := by
  have := LruCache.length_le_of_nodup_lt h.nodup h.fresh
  simpa using this

theorem NRep.nodes_eq {l : DList} {xs : List (Nat × Item)} (h : NRep l xs) : nodes l = xs := by
  unfold nodes
  rw [h.head_eq, walk_fwd_nseg h.links _ (Nat.le_succ_of_le h.length_le_brk)]
  exact filterMap_node_at_nseg h.links

theorem NRep.nodes_back_eq {l : DList} {xs : List (Nat × Item)} (h : NRep l xs) :
    nodes_back l = xs.reverse := by
  unfold nodes_back
  rw [h.tail_eq, walk_back_nseg xs none _ h.links (Nat.le_succ_of_le h.length_le_brk)]
  exact filterMap_node_at_reverse h.links

theorem NRep.ids_eq {l : DList} {xs : List (Nat × Item)} (h : NRep l xs) :
    ids l = xs.map fun x => x.2.id := by
  unfold ids
  rw [h.nodes_eq]

theorem nfirst_eq_head? (l : List (Nat × Item)) : nfirst l none = (l.map Prod.fst).head? := by
  cases l <;> rfl

theorem nlast_eq_getLast? (l : List (Nat × Item)) :
    nlast none l = (l.map Prod.fst).getLast? := by
  induction l using List.reverseRecOn with
  | nil => rfl
  | append_singleton l x _ => simp [nlast_append]

theorem nlast_of_ne_nil {l : List (Nat × Item)} (h : l ≠ []) (p q : Option Nat) :
    nlast p l = nlast q l := by
  cases l with
  | nil => exact absurd rfl h
  | cons x l => rfl

theorem nfirst_of_ne_nil {l : List (Nat × Item)} (h : l ≠ []) (p q : Option Nat) :
    nfirst l p = nfirst l q := by
  cases l with
  | nil => exact absurd rfl h
  | cons x l => rfl

/-- Relinking around a removed node: the node before it gets the `next` of the
removed node, the node after it gets its `prev`. -/
theorem nseg_relink {mem mem2 : Nat → Option Node} {pre post : List (Nat × Item)}
    {x : Nat × Item} (hnd : ((pre ++ x :: post).map Prod.fst).Nodup)
    (hs : nseg mem none (pre ++ x :: post) none)
    (hpre : ∀ b ∈ pre.map Prod.fst, mem2 b =
      if nlast none pre = some b then (mem b).map fun n => { n with next := nfirst post none }
      else mem b)
    (hpost : ∀ b ∈ post.map Prod.fst, mem2 b =
      if nfirst post none = some b then (mem b).map fun n => { n with prev := nlast none pre }
      else mem b) :
    nseg mem2 none (pre ++ post) none := by
  simp only [List.map_append, List.map_cons] at hnd
  have hnd2 := List.nodup_append.mp hnd
  have hndpre := hnd2.1
  have hndpost := (List.nodup_cons.mp hnd2.2.1).2
  rw [nseg_append] at hs ⊢
  obtain ⟨hs1, hs2⟩ := hs
  rw [nseg_cons] at hs2
  refine ⟨?_, ?_⟩
  · rcases snoc_cases pre with rfl | ⟨pre0, z, rfl⟩
    · trivial
    · rw [nseg_append] at hs1 ⊢
      simp only [List.map_append, List.map_cons, List.map_nil] at hndpre
      have hz0 : z.1 ∉ pre0.map Prod.fst := fun hz =>
        (List.nodup_append.mp hndpre).2.2 hz (by simp)
      refine ⟨nseg_congr ?_ hs1.1, ?_, trivial⟩
      · intro b hb
        rw [hpre b (by simp at hb ⊢; exact Or.inl hb), nlast_snoc]
        have hne : ¬ (some z.1 = some b) := by
          simp only [Option.some.injEq]
          rintro rfl
          exact hz0 hb
        rw [if_neg hne]
      · rw [hpre z.1 (by simp), nlast_snoc, if_pos rfl]
        have hz := hs1.2.1
        rw [hz]
        simp [nlast_append]
  · cases post with
    | nil => trivial
    | cons w post0 =>
      have hw0 : w.1 ∉ post0.map Prod.fst := (List.nodup_cons.mp hndpost).1
      obtain ⟨hw, hrest⟩ := hs2.2
      refine ⟨?_, nseg_congr ?_ hrest⟩
      · rw [hpost w.1 (by simp), nfirst_cons, if_pos rfl, hw]
        rfl
      · intro b hb
        rw [hpost b (by simp at hb ⊢; exact Or.inr hb), nfirst_cons]
        have hne : ¬ (some w.1 = some b) := by
          simp only [Option.some.injEq]
          rintro rfl
          exact hw0 hb
        rw [if_neg hne]

theorem nlast_mem {l : List (Nat × Item)} {b : Nat} (h : nlast none l = some b) :
    b ∈ l.map Prod.fst := by
  rcases snoc_cases l with rfl | ⟨l0, z, rfl⟩
  · cases h
  · rw [nlast_snoc] at h
    cases h
    simp

theorem nfirst_mem {l : List (Nat × Item)} {b : Nat} (h : nfirst l none = some b) :
    b ∈ l.map Prod.fst := by
  cases l with
  | nil => cases h
  | cons w l =>
    cases h
    simp

theorem NRep.unlink_prev_ok {l : DList} {pre post : List (Nat × Item)} {x : Nat × Item}
    (h : NRep l (pre ++ x :: post)) :
    ∃ l1, unlink_prev l x.1 = .ok l1 ∧
      (∀ b, l1.mem b =
        if nlast none pre = some b then
          (l.mem b).map fun n => { n with next := nfirst post none }
        else l.mem b) ∧
      l1.head = nfirst pre (nfirst post none) ∧ l1.tail = l.tail ∧ l1.size = l.size ∧
      l1.brk = l.brk := by
  have hs := (nseg_append _ _ _ _ _).mp h.links
  have hx : l.mem x.1 = some ⟨x.2.id, x.2.data, nfirst post none, nlast none pre⟩ := hs.2.1
  rcases snoc_cases pre with rfl | ⟨pre0, z, rfl⟩
  · refine ⟨{ l with head := nfirst post none }, ?_, ?_, rfl, rfl, rfl, rfl⟩
    · simp only [unlink_prev, hx, nlast_nil]
    · intro b
      simp
  · have hz : l.mem z.1 = some ⟨z.2.id, z.2.data, some x.1, nlast none pre0⟩ :=
      ((nseg_append _ _ _ _ _).mp hs.1).2.1
    refine ⟨{ l with
              mem := Function.update l.mem z.1
                (some ⟨z.2.id, z.2.data, nfirst post none, nlast none pre0⟩) },
      ?_, ?_, ?_, rfl, rfl, rfl⟩
    · simp only [unlink_prev, hx, nlast_snoc, hz]
    · intro b
      rw [nlast_snoc]
      by_cases hb : b = z.1
      · subst hb
        simp [hz]
      · have hne : ¬ (some z.1 = some b) := by
          simp only [Option.some.injEq]
          exact fun h2 => hb h2.symm
        simp only [Function.update_noteq hb, if_neg hne]
    · show l.head = _
      rw [h.head_eq, nfirst_append]
      exact nfirst_of_ne_nil (by simp) _ _

theorem unlink_next_ok (l1 : DList) (a : Nat) (cur : Node) (pre post : List (Nat × Item))
    (hcur : l1.mem a = some cur) (hnext : cur.next = nfirst post none)
    (hprev : cur.prev = nlast none pre)
    (hq : ∀ q, nfirst post none = some q → ∃ qn, l1.mem q = some qn) :
    ∃ l2, unlink_next l1 a = .ok l2 ∧
      (∀ b, l2.mem b =
        if b = a then none
        else if nfirst post none = some b then
          (l1.mem b).map fun n => { n with prev := nlast none pre }
        else l1.mem b) ∧
      l2.head = l1.head ∧ l2.tail = (if post = [] then nlast none pre else l1.tail) ∧
      l2.size = l1.size - 1 ∧ l2.brk = l1.brk := by
  cases post with
  | nil =>
    have hn : cur.next = none := hnext
    refine ⟨{ l1 with tail := cur.prev, mem := Function.update l1.mem a none,
                      size := l1.size - 1 }, ?_, ?_, rfl, ?_, rfl, rfl⟩
    · simp only [unlink_next, hcur, hn]
    · intro b
      by_cases hb : b = a
      · subst hb
        simp
      · simp [Function.update_noteq hb, hb]
    · simp [hprev]
  | cons w post0 =>
    have hn : cur.next = some w.1 := hnext
    obtain ⟨qn, hqn⟩ := hq w.1 rfl
    refine ⟨{ l1 with
              mem := Function.update
                (Function.update l1.mem w.1 (some { qn with prev := cur.prev })) a none
              size := l1.size - 1 },
      ?_, ?_, rfl, ?_, rfl, rfl⟩
    · simp only [unlink_next, hcur, hn, hqn]
    · intro b
      by_cases hb : b = a
      · subst hb
        simp
      · simp only [Function.update_noteq hb, if_neg hb, nfirst_cons]
        by_cases hbw : b = w.1
        · subst hbw
          simp [hqn, hprev]
        · have hne : ¬ (some w.1 = some b) := by
            simp only [Option.some.injEq]
            exact fun h2 => hbw h2.symm
          simp only [Function.update_noteq hbw, if_neg hne]
    · simp

/-- Removing the first node that carries `id`. -/
theorem NRep.remove_hit {l : DList} {pre post : List (Nat × Item)} {x : Nat × Item}
    (h : NRep l (pre ++ x :: post)) {id : Int} (hx : x.2.id = id)
    (hpre : ∀ y ∈ pre, y.2.id ≠ id) :
    ∃ l2, remove_node_by_id (some l) id = .ok (0, some l2) ∧ NRep l2 (pre ++ post) ∧
      l2.mem x.1 = none ∧ l2.brk = l.brk := by
  have hnd := h.nodup
  have hnd0 := hnd
  simp only [List.map_append, List.map_cons] at hnd
  have hnd2 := List.nodup_append.mp hnd
  have hxpre : x.1 ∉ pre.map Prod.fst := fun hx1 => hnd2.2.2 hx1 (by simp)
  have hxpost : x.1 ∉ post.map Prod.fst := (List.nodup_cons.mp hnd2.2.1).1
  have hdisj : ∀ b, b ∈ pre.map Prod.fst → b ∉ post.map Prod.fst := fun b hb hb2 =>
    hnd2.2.2 hb (by simp [hb2])
  have hs := (nseg_append _ _ _ _ _).mp h.links
  have hmx : l.mem x.1 = some ⟨x.2.id, x.2.data, nfirst post none, nlast none pre⟩ := hs.2.1
  have hlen : pre.length < l.brk + 1 := by
    have := h.length_le_brk
    simp at this
    omega
  have hfind := find_node_hit h.links hpre hx (l.brk + 1) hlen
  rw [← h.head_eq] at hfind
  have hhead : ∃ a, l.head = some a := by
    rw [h.head_eq, nfirst_append]
    cases pre <;> exact ⟨_, rfl⟩
  obtain ⟨a0, ha0⟩ := hhead
  obtain ⟨l1, hl1, hm1, hh1, ht1, hsz1, hb1⟩ := h.unlink_prev_ok
  have hx1 : l1.mem x.1 = some ⟨x.2.id, x.2.data, nfirst post none, nlast none pre⟩ := by
    rw [hm1 x.1]
    have hne : ¬ (nlast none pre = some x.1) := fun h2 => hxpre (nlast_mem h2)
    rw [if_neg hne, hmx]
  have hq : ∀ q, nfirst post none = some q → ∃ qn, l1.mem q = some qn := by
    intro q hq
    have hqpost := nfirst_mem hq
    have hne : ¬ (nlast none pre = some q) := fun h2 => hdisj q (nlast_mem h2) hqpost
    rw [hm1 q, if_neg hne]
    cases post with
    | nil => cases hq
    | cons w post0 =>
      cases hq
      exact ⟨_, hs.2.2.1⟩
  obtain ⟨l2, hl2, hm2, hh2, ht2, hsz2, hb2⟩ :=
    unlink_next_ok l1 x.1 _ pre post hx1 rfl rfl hq
  refine ⟨l2, ?_, ?_, ?_, ?_⟩
  · rw [ha0] at hfind
    simp only [remove_node_by_id, ha0, hfind, hl1, hl2]
  · refine ⟨?_, ?_, ?_, ?_, ?_, ?_⟩
    · have hsub : (pre ++ post).Sublist (pre ++ x :: post) :=
        List.Sublist.append_left (List.sublist_cons_self x post) pre
      exact List.Nodup.sublist (hsub.map _) hnd0
    · intro b hb
      rw [hb2, hb1]
      apply h.fresh
      simp only [List.map_append, List.mem_append, List.map_cons, List.mem_cons] at hb ⊢
      rcases hb with hb | hb
      · exact Or.inl hb
      · exact Or.inr (Or.inr hb)
    · apply nseg_relink hnd0 h.links
      · intro b hb
        have hbx : b ≠ x.1 := by
          rintro rfl
          exact hxpre hb
        have hne : ¬ (nfirst post none = some b) := fun h2 => hdisj b hb (nfirst_mem h2)
        rw [hm2 b, if_neg hbx, if_neg hne, hm1 b]
      · intro b hb
        have hbx : b ≠ x.1 := by
          rintro rfl
          exact hxpost hb
        have hne : ¬ (nlast none pre = some b) := fun h2 => hdisj b (nlast_mem h2) hb
        rw [hm2 b, if_neg hbx, hm1 b, if_neg hne]
    · rw [hh2, hh1, nfirst_append]
    · rw [ht2, ht1, h.tail_eq, nlast_append]
      by_cases hp : post = []
      · subst hp
        simp
      · rw [if_neg hp, nlast_append, nlast_cons]
        exact nlast_of_ne_nil hp _ _
    · rw [hsz2, hsz1, h.size_eq]
      simp
      omega
  · rw [hm2 x.1, if_pos rfl]
  · rw [hb2, hb1]

/-- No node carries `id`: the call returns -1 and leaves the list as it is. -/
theorem NRep.remove_miss {l : DList} {xs : List (Nat × Item)} (h : NRep l xs) {id : Int}
    (hk : ∀ x ∈ xs, x.2.id ≠ id) :
    remove_node_by_id (some l) id = .ok (-1, some l) := by
  have hfind := find_node_miss h.links hk (l.brk + 1) (Nat.le_succ_of_le h.length_le_brk)
  rw [← h.head_eq] at hfind
  cases hh : l.head with
  | none => simp only [remove_node_by_id, hh]
  | some a =>
    rw [hh] at hfind
    simp only [remove_node_by_id, hh, hfind]

/-- Appending a node with `add_node`. -/
theorem NRep.add_node_ok {l : DList} {xs : List (Nat × Item)} (h : NRep l xs) (id : Int)
    (data : String) :
    ∃ l2, add_node (some l) id data true true = .ok (some l2) ∧
      NRep l2 (xs ++ [(l.brk, ⟨id, data⟩)]) ∧ l2.brk = l.brk + 1 := by
  have hal : l.brk ∉ xs.map Prod.fst := fun hmem => lt_irrefl _ (h.fresh _ hmem)
  rcases snoc_cases xs with rfl | ⟨xs0, z, rfl⟩
  · have ht : l.tail = none := h.tail_eq
    refine ⟨_, (by simp only [add_node, if_true, ht]; rfl), ?_, rfl⟩
    refine ⟨by simp, ?_, ?_, rfl, rfl, ?_⟩
    · intro b hb
      simp only [List.nil_append, List.map_cons, List.map_nil, List.mem_singleton] at hb
      subst hb
      exact Nat.lt_succ_self _
    · simp [nseg_cons, ht]
    · show l.size + 1 = _
      rw [h.size_eq]
      simp
  · have ht : l.tail = some z.1 := by rw [h.tail_eq, nlast_snoc]
    have hs := (nseg_append _ _ _ _ _).mp h.links
    have hz : l.mem z.1 = some ⟨z.2.id, z.2.data, none, nlast none xs0⟩ := hs.2.1
    have hza : z.1 ≠ l.brk := by
      rintro h2
      exact hal (by simp [← h2])
    have hnd := h.nodup
    simp only [List.map_append, List.map_cons, List.map_nil] at hnd
    have hz0 : z.1 ∉ xs0.map Prod.fst := fun hz1 =>
      (List.nodup_append.mp hnd).2.2 hz1 (by simp)
    refine ⟨_, (by simp only [add_node, if_true, ht, Function.update_noteq hza, hz]; rfl),
      ?_, rfl⟩
    refine ⟨?_, ?_, ?_, ?_, ?_, ?_⟩
    · have hnd3 : ((xs0 ++ [z]).map Prod.fst ++ [l.brk]).Nodup := by
        apply List.Nodup.append h.nodup (List.nodup_singleton _)
        intro b hb hb2
        rw [List.mem_singleton] at hb2
        subst hb2
        exact hal hb
      simpa using hnd3
    · intro b hb
      simp only [List.map_append, List.map_cons, List.map_nil, List.mem_append,
        List.mem_singleton] at hb
      show b < l.brk + 1
      rcases hb with (hb | hb) | hb
      · exact Nat.lt_succ_of_lt (h.fresh b (by simp [hb]))
      · subst hb
        exact Nat.lt_succ_of_lt (h.fresh z.1 (by simp))
      · subst hb
        exact Nat.lt_succ_self _
    · rw [nseg_append, nseg_append]
      refine ⟨⟨nseg_congr ?_ hs.1, ?_, trivial⟩, ?_, trivial⟩
      · intro b hb
        have hbz : b ≠ z.1 := by
          rintro rfl
          exact hz0 hb
        have hba : b ≠ l.brk := by
          rintro rfl
          exact hal (by simp [hb])
        simp [Function.update_noteq hbz, Function.update_noteq hba]
      · simp
      · simp [Function.update_noteq hza.symm, nlast_snoc, ht]
    · show l.head = _
      rw [h.head_eq, nfirst_append (xs0 ++ [z]) [_]]
      exact nfirst_of_ne_nil (by simp) _ _
    · show some l.brk = _
      rw [nlast_snoc]
    · show l.size + 1 = _
      rw [h.size_eq]
      simp
      omega

theorem NRep.add_nodes_ok {l : DList} {xs : List (Nat × Item)} (h : NRep l xs)
    (ys : List (Int × String)) :
    ∃ l2 zs, add_nodes (some l) ys = .ok (some l2) ∧ NRep l2 (xs ++ zs) ∧
      zs.map Prod.snd = ys.map fun y => ⟨y.1, y.2⟩ := by
  induction ys generalizing l xs with
  | nil => exact ⟨l, [], rfl, by simpa using h, rfl⟩
  | cons y ys ih =>
    obtain ⟨l1, hl1, hr1, _⟩ := h.add_node_ok y.1 y.2
    obtain ⟨l2, zs, hl2, hr2, hzs⟩ := ih hr1
    refine ⟨l2, (l.brk, ⟨y.1, y.2⟩) :: zs, ?_, by simpa using hr2, by simp [hzs]⟩
    simp only [add_nodes, hl1, hl2]

/-- Every list built by `create_list` and `add_node` is well formed and holds
the added nodes in the order of the calls. -/
theorem built_lists_wf (ys : List (Int × String)) :
    ∃ l, add_nodes (create_list true) ys = .ok (some l) ∧ NWF l ∧
      (nodes l).map Prod.snd = ys.map fun y => ⟨y.1, y.2⟩ := by
  have h0 : NRep { head := none, tail := none, size := 0, mem := fun _ => none, brk := 0 } [] :=
    ⟨List.nodup_nil, (fun a ha => by cases ha), trivial, rfl, rfl, rfl⟩
  obtain ⟨l2, zs, hl2, hr2, hzs⟩ := h0.add_nodes_ok ys
  refine ⟨l2, hl2, ⟨_, hr2⟩, ?_⟩
  rw [hr2.nodes_eq]
  simpa using hzs

theorem demo_list_wf : NWF demo_list :=
  ⟨[(0, ⟨1, "First node"⟩), (1, ⟨2, "Second node"⟩), (2, ⟨3, "Third node"⟩)],
    by decide, by decide, by simp [nseg_cons, demo_list], rfl, rfl, rfl⟩

/-! ## `remove_node_by_id` -/

/-- C14: on a well-formed doubly-linked list `remove_node_by_id` returns; it
returns 0 exactly when some node carries `id` and -1 otherwise. On -1 the list
is the one before the call. On 0 the list is well formed again, `size` is one
less, exactly the first node with that id (counted from `head`) is gone and
freed, the remaining nodes are in their order both forward from `head` and
backward from `tail`, and `head` / `tail` are those of the remaining nodes:
unchanged unless the removed node was the first / the last. -/
theorem remove_node_by_id_spec (l : DList) (id : Int) (hwf : NWF l) :
    ∃ r l2, remove_node_by_id (some l) id = .ok (r, some l2) ∧
      (r = 0 ↔ id ∈ ids l) ∧ (r = -1 ↔ id ∉ ids l) ∧
      (id ∉ ids l → l2 = l) ∧
      (id ∈ ids l → NWF l2 ∧ l2.size = l.size - 1 ∧
        ∃ pre x post, nodes l = pre ++ x :: post ∧ x.2.id = id ∧ (∀ y ∈ pre, y.2.id ≠ id) ∧
          nodes l2 = pre ++ post ∧ nodes_back l2 = (pre ++ post).reverse ∧
          l2.mem x.1 = none ∧
          l2.head = ((pre ++ post).map Prod.fst).head? ∧
          l2.tail = ((pre ++ post).map Prod.fst).getLast? ∧
          (pre ≠ [] → l2.head = l.head) ∧ (post ≠ [] → l2.tail = l.tail)) := by
  obtain ⟨xs, h⟩ := hwf
  by_cases hmem : ∃ x ∈ xs, x.2.id = id
  · have hin : id ∈ ids l := by
      rw [h.ids_eq]
      obtain ⟨x, hx, hxid⟩ := hmem
      exact List.mem_map.mpr ⟨x, hx, hxid⟩
    obtain ⟨pre, x, post, rfl, hx, hpre⟩ := split_first_id xs id hmem
    obtain ⟨l2, hl2, hr2, hfree, _⟩ := h.remove_hit hx hpre
    refine ⟨0, l2, hl2, ?_, ?_, ?_, ?_⟩
    · exact ⟨fun _ => hin, fun _ => rfl⟩
    · exact ⟨fun h0 => absurd h0 (by decide), fun h1 => absurd hin h1⟩
    · exact fun h1 => absurd hin h1
    · intro _
      refine ⟨⟨_, hr2⟩, ?_, pre, x, post, h.nodes_eq, hx, hpre, hr2.nodes_eq, hr2.nodes_back_eq,
        hfree, ?_, ?_, ?_, ?_⟩
      · rw [hr2.size_eq, h.size_eq]
        simp
        omega
      · rw [hr2.head_eq, nfirst_eq_head?]
      · rw [hr2.tail_eq, nlast_eq_getLast?]
      · intro hp
        rw [hr2.head_eq, h.head_eq, nfirst_append, nfirst_append]
        exact nfirst_of_ne_nil hp _ _
      · intro hp
        rw [hr2.tail_eq, h.tail_eq, nlast_append, nlast_append, nlast_cons]
        exact nlast_of_ne_nil hp _ _
  · have hk : ∀ x ∈ xs, x.2.id ≠ id := fun x hx hxid => hmem ⟨x, hx, hxid⟩
    have hnot : id ∉ ids l := by
      rw [h.ids_eq]
      intro hin
      obtain ⟨x, hx, hxid⟩ := List.mem_map.mp hin
      exact hk x hx hxid
    refine ⟨-1, l, h.remove_miss hk, ?_, ?_, fun _ => rfl, fun hin => absurd hin hnot⟩
    · exact ⟨fun h0 => absurd h0 (by decide), fun hin => absurd hin hnot⟩
    · exact ⟨fun _ => hnot, fun _ => rfl⟩

/-- C14 at a concrete input: the list 1, 2, 3 of `main` and the id 2. -/
theorem remove_node_by_id_spec_witness :
    NWF demo_list ∧
      outcome (remove_node_by_id (some demo_list) 2) =
        some (0, [(0, ⟨1, "First node"⟩), (2, ⟨3, "Third node"⟩)],
          [(2, ⟨3, "Third node"⟩), (0, ⟨1, "First node"⟩)]) := by
  refine ⟨demo_list_wf, ?_⟩
  obtain ⟨r, l2, hl2, hr0, _, _, hhit⟩ := remove_node_by_id_spec demo_list 2 demo_list_wf
  have hin : (2 : Int) ∈ ids demo_list := by decide
  obtain ⟨_, _, pre, x, post, h1, hx, hpre, h2, h3, _⟩ := hhit hin
  have hr : r = 0 := hr0.mpr hin
  subst hr
  rw [hl2]
  show some ((0 : Int), nodes l2, nodes_back l2) = _
  have hn : nodes demo_list =
      [(0, ⟨1, "First node"⟩), (1, ⟨2, "Second node"⟩), (2, ⟨3, "Third node"⟩)] := by decide
  rw [hn] at h1
  have hsplit : pre = [(0, ⟨1, "First node"⟩)] ∧ x = (1, ⟨2, "Second node"⟩) ∧
      post = [(2, ⟨3, "Third node"⟩)] := by
    rcases pre with _ | ⟨p0, _ | ⟨p1, pre2⟩⟩
    · simp only [List.nil_append, List.cons.injEq] at h1
      rw [← h1.1] at hx
      exact absurd hx (by decide)
    · simp only [List.singleton_append, List.cons.injEq] at h1
      exact ⟨by rw [h1.1], h1.2.1.symm, h1.2.2.symm⟩
    · simp only [List.cons_append, List.cons.injEq] at h1
      have hp1 := hpre p1 (by simp)
      rw [← h1.2.1] at hp1
      exact absurd rfl hp1
  obtain ⟨rfl, rfl, rfl⟩ := hsplit
  rw [h2, h3]
  rfl

/-- The three removals `main` can make on its list 1, 2, 3, and a miss. -/
theorem remove_node_by_id_on_main_list :
    outcome (remove_node_by_id (some demo_list) 1) =
      some (0, [(1, ⟨2, "Second node"⟩), (2, ⟨3, "Third node"⟩)],
        [(2, ⟨3, "Third node"⟩), (1, ⟨2, "Second node"⟩)]) ∧
    outcome (remove_node_by_id (some demo_list) 3) =
      some (0, [(0, ⟨1, "First node"⟩), (1, ⟨2, "Second node"⟩)],
        [(1, ⟨2, "Second node"⟩), (0, ⟨1, "First node"⟩)]) ∧
    outcome (remove_node_by_id (some demo_list) 7) =
      some (-1, [(0, ⟨1, "First node"⟩), (1, ⟨2, "Second node"⟩), (2, ⟨3, "Third node"⟩)],
        [(2, ⟨3, "Third node"⟩), (1, ⟨2, "Second node"⟩), (0, ⟨1, "First node"⟩)]) := by
  refine ⟨?_, ?_, ?_⟩ <;> decide!

end NodeList
